import Mathlib

/-!
# sfCoach: a verification development

A shallow embedding of `src/sfCoach.hpp` (the target facade, the three
animation classes and the `Coach` scheduler) together with theorems about it.

Conventions of the embedding:

* A `float` is a rational number (`ℚ`) that holds a single-precision value. The float
  operations of `DisplayAnimation` and `MoveAnimation` (the conversion of a count of
  microseconds to seconds, `+`, `-`, `*`, `/`) round their exact result to single precision
  with `F32.round` (IEEE 754 binary32, round to nearest, ties to even, every operation rounded
  on its own). Infinities and NaN are outside the model: a statement that depends on a result
  staying finite says so in a hypothesis.
* Two definitions compute in exact rational arithmetic instead, for the statements that are
  made in exact arithmetic: `Time.asSecondsExact` and `MoveAnimation.updateExact`. The step
  interval of `FadeAnimation` is likewise computed exactly before it is truncated to `long`.
* `sf::Uint8` colour channels are naturals, reduced `% 256` where the C++
  arithmetic wraps.
* `sf::Time` is a signed count of microseconds, as in the library.
* A drawable captured by reference in a `Target` closure is passed explicitly:
  a setter of a `Target D` is a function `D → D` on the state of the bound
  drawable.
* `sf::Clock` reads the wall clock; every `update` receives the clock reading
  `now` of that call as an argument.
-/

namespace sfCoach

/-! ## Library types (SFML) -/

/-- Value of `sf::Time`: a signed number of microseconds. -/
abbrev Time := Int

/-- Rounding of a rational to the nearest integer, ties to the even integer. -/
def roundHalfEven (x : ℚ) : Int :=
  if x - (Int.floor x : ℚ) < 1 / 2 then Int.floor x
  else if 1 / 2 < x - (Int.floor x : ℚ) then Int.floor x + 1
  else if Int.floor x % 2 = 0 then Int.floor x else Int.floor x + 1

/-- Binary exponent of the single-precision binade of `q`, not below the exponent -126 of the
subnormal range. -/
def F32.exponent (q : ℚ) : Int := max (Int.log 2 |q|) (-126)

/-- Spacing of the single-precision values around `q`: 24 significant bits. -/
def F32.ulp (q : ℚ) : ℚ := (2 : ℚ) ^ (F32.exponent q - 23)

/-- Rounding to single precision (IEEE 754 binary32, round to nearest, ties to even). The
exponent is not bounded above: a result beyond `F32.maxFinite` stands for an overflow. -/
def F32.round (q : ℚ) : ℚ := (roundHalfEven (q / F32.ulp q) : ℚ) * F32.ulp q

/-- The largest finite single-precision value, `(2 ^ 24 - 1) * 2 ^ 104`. -/
def F32.maxFinite : ℚ := 340282346638528859811704183484516925440

/-- The rounded result of a float operation is a finite single-precision value. -/
def F32.finite (q : ℚ) : Prop := |q| ≤ F32.maxFinite

/-- Value returned by `sf::Time::asSeconds`, `m_microseconds / 1000000.f`: the 64-bit count of
microseconds is converted to `float`, then divided by one million in `float`. -/
def Time.asSeconds (t : Time) : ℚ := F32.round (F32.round (t : ℚ) / 1000000)

/-- The number of seconds in a count of microseconds, in exact rational arithmetic. -/
def Time.asSecondsExact (t : Time) : ℚ := (t : ℚ) / 1000000

/-- Conversion of a 64-bit integer to `sf::Int32` (two's complement wrap-around). -/
def toInt32 (x : Int) : Int := (x + 2147483648) % 4294967296 - 2147483648

/-- Value returned by `sf::Time::asMilliseconds`: microseconds divided by 1000 with
C++ integer division, converted to `sf::Int32`. -/
def Time.asMilliseconds (t : Time) : Int := toInt32 (Int.tdiv t 1000)

/-- State of an `sf::Clock`: the time point of its last (re)start. -/
structure Clock where
  m_startTime : Time
deriving DecidableEq, Repr

/-- Result of `sf::Clock::getElapsedTime` when the wall clock reads `now`. -/
def Clock.getElapsedTime (c : Clock) (now : Time) : Time := now - c.m_startTime

/-- Result of `sf::Clock::restart` when the wall clock reads `now`: the elapsed time and the
restarted clock. -/
def Clock.restart (c : Clock) (now : Time) : Time × Clock :=
  (now - c.m_startTime, { m_startTime := now })

/-- Value of `sf::Vector2f`. -/
structure Vector2f where
  x : ℚ
  y : ℚ
deriving DecidableEq, Repr

instance : Add Vector2f := ⟨fun u v => ⟨u.x + v.x, u.y + v.y⟩⟩
instance : Sub Vector2f := ⟨fun u v => ⟨u.x - v.x, u.y - v.y⟩⟩
instance : HMul Vector2f ℚ Vector2f := ⟨fun u k => ⟨u.x * k, u.y * k⟩⟩

/-- The `operator+` of `sf::Vector2f`: each component is a `float` addition. -/
def Vector2f.fadd (u v : Vector2f) : Vector2f :=
  { x := F32.round (u.x + v.x), y := F32.round (u.y + v.y) }

/-- The `operator-` of `sf::Vector2f`: each component is a `float` subtraction. -/
def Vector2f.fsub (u v : Vector2f) : Vector2f :=
  { x := F32.round (u.x - v.x), y := F32.round (u.y - v.y) }

/-- The `operator*` of `sf::Vector2f` with a `float`: each component is a `float`
multiplication. -/
def Vector2f.fmul (u : Vector2f) (k : ℚ) : Vector2f :=
  { x := F32.round (u.x * k), y := F32.round (u.y * k) }

/-- Value of `sf::Color`: four 8-bit channels. -/
structure Color where
  r : Nat
  g : Nat
  b : Nat
  a : Nat
deriving DecidableEq, Repr

/-- Every channel of the colour is an 8-bit value. -/
def Color.valid (c : Color) : Prop := c.r < 256 ∧ c.g < 256 ∧ c.b < 256 ∧ c.a < 256

instance (c : Color) : Decidable c.valid := by unfold Color.valid; infer_instance

/-- Value of `sf::Color::toInteger`: the channels packed as `0xRRGGBBAA`. -/
def Color.toInteger (c : Color) : Nat :=
  c.r * 16777216 + c.g * 65536 + c.b * 256 + c.a

/-- Colour built by `sf::Color(Uint32)`: the channels unpacked from `0xRRGGBBAA`. -/
def Color.ofInteger (color : Nat) : Color :=
  { r := color / 16777216 % 256, g := color / 65536 % 256, b := color / 256 % 256,
    a := color % 256 }

/-- Result of `a += way` on an `sf::Uint8` channel with an `int` right-hand side. -/
def addUint8 (a : Nat) (way : Int) : Nat := (((a : Int) + way) % 256).toNat

/-- Conversion of a `float` to `long`: truncation toward zero. -/
def truncToLong (q : ℚ) : Int := if 0 ≤ q then Int.floor q else Int.ceil q

/-- Conversion of a `float` to `unsigned int`: the integer part. The C++ conversion is defined
for values in `[0, 2^32)` only; this is its value there. -/
def floatToUnsigned (q : ℚ) : Nat := (Int.floor q).toNat

/-- Angle stored by `sf::Transformable::setRotation`: `fmod(angle, 360)`, which is exact, and,
when that is negative, its `float` sum with 360. -/
def normalizeAngle (angle : ℚ) : ℚ :=
  if angle - 360 * ((if 0 ≤ angle / 360 then Int.floor (angle / 360)
      else Int.ceil (angle / 360) : Int) : ℚ) < 0 then
    F32.round (angle - 360 * ((if 0 ≤ angle / 360 then Int.floor (angle / 360)
      else Int.ceil (angle / 360) : Int) : ℚ) + 360)
  else
    angle - 360 * ((if 0 ≤ angle / 360 then Int.floor (angle / 360)
      else Int.ceil (angle / 360) : Int) : ℚ)

/-- State of an `sf::Sprite`, restricted to the properties the facade reaches. -/
structure Sprite where
  position : Vector2f
  rotation : ℚ
  color : Color
deriving DecidableEq, Repr

/-- State of an `sf::CircleShape`, restricted to the properties the facade reaches. -/
structure CircleShape where
  position : Vector2f
  rotation : ℚ
  radius : ℚ
  fillColor : Color
  outlineColor : Color
deriving DecidableEq, Repr

/-- State of an `sf::RectangleShape`, restricted to the properties the facade reaches. -/
structure RectangleShape where
  position : Vector2f
  rotation : ℚ
  size : Vector2f
  fillColor : Color
  outlineColor : Color
deriving DecidableEq, Repr

/-- State of an `sf::Text`, restricted to the properties the facade reaches. -/
structure Text where
  position : Vector2f
  rotation : ℚ
  characterSize : Nat
  fillColor : Color
  outlineColor : Color
deriving DecidableEq, Repr

/-! ## Target facade -/

/-- Translation of `struct Target`: two colour fields and five setters bound to a drawable whose
state has type `D`. -/
structure Target (D : Type) where
  color : Color
  secondaryColor : Color
  setPosition : Vector2f → D → D
  setSize : Vector2f → D → D
  setRotation : ℚ → D → D
  setColor : Color → D → D
  setSecondaryColor : Color → D → D

/-- The call `target.setSize(v)` on a target bound to a drawable in state `d`: the target and
the drawable after the call. The closure captures the drawable only, so the target is returned
as it was. -/
def Target.invokeSetSize {D : Type} (target : Target D) (v : Vector2f) (d : D) : Target D × D :=
  (target, target.setSize v d)

/-- Translation of `createTarget(sf::Sprite&)`. The size setter has an empty body. -/
def Sprite.createTarget (sprite : Sprite) : Target Sprite :=
  { color := sprite.color
    secondaryColor := sprite.color
    setPosition := fun pos s => { s with position := pos }
    setSize := fun _ s => s
    setRotation := fun angle s => { s with rotation := normalizeAngle angle }
    setColor := fun col s => { s with color := col }
    setSecondaryColor := fun col s => { s with color := col } }

/-- Translation of `createTarget(sf::CircleShape&)`. -/
def CircleShape.createTarget (shape : CircleShape) : Target CircleShape :=
  { color := shape.fillColor
    secondaryColor := shape.outlineColor
    setPosition := fun pos s => { s with position := pos }
    setSize := fun pos s => { s with radius := pos.x }
    setRotation := fun angle s => { s with rotation := normalizeAngle angle }
    setColor := fun col s => { s with fillColor := col }
    setSecondaryColor := fun col s => { s with outlineColor := col } }

/-- Translation of `createTarget(sf::RectangleShape&)`. -/
def RectangleShape.createTarget (shape : RectangleShape) : Target RectangleShape :=
  { color := shape.fillColor
    secondaryColor := shape.outlineColor
    setPosition := fun pos s => { s with position := pos }
    setSize := fun pos s => { s with size := pos }
    setRotation := fun angle s => { s with rotation := normalizeAngle angle }
    setColor := fun col s => { s with fillColor := col }
    setSecondaryColor := fun col s => { s with outlineColor := col } }

/-- Translation of `createTarget(sf::Text&)`. The `float` component `pos.x` is converted to the
`unsigned int` parameter of `setCharacterSize`. -/
def Text.createTarget (text : Text) : Target Text :=
  { color := text.fillColor
    secondaryColor := text.outlineColor
    setPosition := fun pos s => { s with position := pos }
    setSize := fun pos s => { s with characterSize := floatToUnsigned pos.x }
    setRotation := fun angle s => { s with rotation := normalizeAngle angle }
    setColor := fun col s => { s with fillColor := col }
    setSecondaryColor := fun col s => { s with outlineColor := col } }

/-! ## Animations -/

/-- What one call of an animation's `update` produces: the animation's new state, the new state
of the drawable its target is bound to, and the returned completion flag. -/
structure Outcome (A D : Type) where
  anim : A
  drawable : D
  done : Bool

/-- Outcomes of a sequence of `update` calls made at the clock readings `nows`, one entry per
call, each call starting from the state the previous one left. -/
def runUpdates {A D : Type} (upd : A → Time → D → Outcome A D) (a : A) (d : D) :
    List Time → List (Outcome A D)
  | [] => []
  | now :: rest =>
    let o := upd a now d
    o :: runUpdates upd o.anim o.drawable rest

/-- Translation of `class DisplayAnimation`. -/
structure DisplayAnimation (D : Type) where
  m_target : Target D
  m_clock : Clock
  m_delay : ℚ
  m_show : Bool

/-- Translation of the constructor of `DisplayAnimation`, run when the wall clock reads `now`.
The C++ default argument `show = false` is passed explicitly. -/
def DisplayAnimation.new {D : Type} (target : Target D) (delay : ℚ) (show_ : Bool)
    (now : Time) : DisplayAnimation D :=
  { m_target := target, m_clock := { m_startTime := now }, m_delay := delay, m_show := show_ }

/-- Translation of `DisplayAnimation::update`. -/
def DisplayAnimation.update {D : Type} (self : DisplayAnimation D) (now : Time) (d : D) :
    Outcome (DisplayAnimation D) D :=
  if (self.m_clock.getElapsedTime now).asSeconds ≥ self.m_delay then
    { anim := self
      drawable := self.m_target.setColor
        { r := 255, g := 255, b := 255, a := self.m_show.toNat * 255 } d
      done := true }
  else
    { anim := self, drawable := d, done := false }

/-- Translation of `class FadeAnimation`. The member `m_time` is never written nor read and is
left out. -/
structure FadeAnimation (D : Type) where
  m_target : Target D
  m_clock : Clock
  m_step : Int
  m_way : Int
  m_color : Color
  m_steps : Int
  m_flag : Bool

/-- Translation of the constructor of `FadeAnimation`, run when the wall clock reads `now`.
The constructor does not initialise `m_flag`; the value the member happens to hold is the
argument `flag0`. The C++ default argument `fadeIn = false` is passed explicitly. -/
def FadeAnimation.new {D : Type} (target : Target D) (time : ℚ) (fadeIn : Bool) (now : Time)
    (flag0 : Bool) : FadeAnimation D :=
  { m_target := target
    m_clock := { m_startTime := now }
    m_way := if fadeIn then 1 else -1
    m_color := target.color
    m_step := truncToLong ((time * 1000) / 255)
    m_steps := 0
    m_flag := flag0 }

/-- First block of `FadeAnimation::update`: on the first call, apply the target's colour with
alpha 0 (fading in) or 255 (fading out) to both colour setters and raise `m_flag`. -/
def FadeAnimation.initBlock {D : Type} (self : FadeAnimation D) (d : D) : FadeAnimation D × D :=
  if !self.m_flag then
    let c0 := Color.ofInteger self.m_target.color.toInteger
    let c : Color := if self.m_way = 1 then { c0 with a := 0 } else { c0 with a := 255 }
    ({ self with m_flag := true },
      self.m_target.setSecondaryColor c (self.m_target.setColor c d))
  else (self, d)

/-- Second block of `FadeAnimation::update`: when at least `m_step` milliseconds have elapsed on
the clock, move the working alpha by `m_way`, apply the working colour to both colour setters,
restart the clock and count the step. -/
def FadeAnimation.stepBlock {D : Type} (self : FadeAnimation D) (now : Time) (d : D) :
    FadeAnimation D × D :=
  if (self.m_clock.getElapsedTime now).asMilliseconds ≥ self.m_step then
    let col : Color := { self.m_color with a := addUint8 self.m_color.a self.m_way }
    ({ self with m_color := col, m_clock := (self.m_clock.restart now).2,
                 m_steps := self.m_steps + 1 },
      self.m_target.setSecondaryColor col (self.m_target.setColor col d))
  else (self, d)

/-- Translation of `FadeAnimation::update`. The counter `m_steps` is a C++ `int`; it is modelled
without a bound, which agrees with the code for fewer than `2^31` steps. -/
def FadeAnimation.update {D : Type} (self : FadeAnimation D) (now : Time) (d : D) :
    Outcome (FadeAnimation D) D :=
  let s1 := self.initBlock d
  let s2 := s1.1.stepBlock now s1.2
  { anim := s2.1, drawable := s2.2, done := decide (s2.1.m_steps ≥ 255) }

/-- Translation of `class MoveAnimation`. -/
structure MoveAnimation (D : Type) where
  m_target : Target D
  m_clock : Clock
  m_factor : ℚ
  m_speed : ℚ
  m_start : Vector2f
  m_end : Vector2f

/-- Translation of the constructor of `MoveAnimation`, run when the wall clock reads `now` on a
drawable in state `d`: it moves the target to `start`. -/
def MoveAnimation.new {D : Type} (target : Target D) (start end_ : Vector2f) (speed : ℚ)
    (now : Time) (d : D) : MoveAnimation D × D :=
  ({ m_target := target, m_clock := { m_startTime := now }, m_factor := 0, m_speed := speed,
     m_start := start, m_end := end_ },
    target.setPosition start d)

/-- The expression `m_start + (m_end - m_start) * factor` of `MoveAnimation::update`, every
`float` operation rounded to single precision. -/
def MoveAnimation.positionAt {D : Type} (self : MoveAnimation D) (factor : ℚ) : Vector2f :=
  Vector2f.fadd self.m_start (Vector2f.fmul (Vector2f.fsub self.m_end self.m_start) factor)

/-- Translation of `MoveAnimation::update`, every `float` operation rounded to single
precision. -/
def MoveAnimation.update {D : Type} (self : MoveAnimation D) (now : Time) (d : D) :
    Outcome (MoveAnimation D) D :=
  let r := self.m_clock.restart now
  let delta : ℚ := r.1.asSeconds
  let factor : ℚ := F32.round (self.m_factor + F32.round (delta * self.m_speed))
  let newPos : Vector2f := self.positionAt factor
  { anim := { self with m_clock := r.2, m_factor := factor }
    drawable := self.m_target.setPosition newPos d
    done := decide (factor ≥ 1) }

/-- The results of the float operations of one `MoveAnimation::update` call are all finite
single-precision values: no operation of the call overflows. -/
def MoveAnimation.inRange {D : Type} (self : MoveAnimation D) (now : Time) : Prop :=
  let delta : ℚ := (self.m_clock.restart now).1.asSeconds
  let factor : ℚ := F32.round (self.m_factor + F32.round (delta * self.m_speed))
  let diff : Vector2f := Vector2f.fsub self.m_end self.m_start
  let prod : Vector2f := Vector2f.fmul diff factor
  let pos : Vector2f := self.positionAt factor
  F32.finite (F32.round (delta * self.m_speed)) ∧ F32.finite factor ∧
    F32.finite diff.x ∧ F32.finite diff.y ∧ F32.finite prod.x ∧ F32.finite prod.y ∧
    F32.finite pos.x ∧ F32.finite pos.y

/-- The body of `MoveAnimation::update` read in exact rational arithmetic: no operation
rounds. -/
def MoveAnimation.updateExact {D : Type} (self : MoveAnimation D) (now : Time) (d : D) :
    Outcome (MoveAnimation D) D :=
  let r := self.m_clock.restart now
  let delta : ℚ := r.1.asSecondsExact
  let factor : ℚ := self.m_factor + delta * self.m_speed
  let newPos : Vector2f := self.m_start + (self.m_end - self.m_start) * factor
  { anim := { self with m_clock := r.2, m_factor := factor }
    drawable := self.m_target.setPosition newPos d
    done := decide (factor ≥ 1) }

/-! ## Coach -/

/-- Translation of `class Coach`. An `Animation*` is a value of the pointer type `P`. -/
structure Coach (P : Type) where
  m_animations : List P

/-- Translation of `Coach::playAnimation`. -/
def Coach.playAnimation {P : Type} (self : Coach P) (animation : P) : Coach P :=
  { m_animations := self.m_animations ++ [animation] }

/-- Translation of `Coach::stopAllAnimations`. -/
def Coach.stopAllAnimations {P : Type} (_self : Coach P) : Coach P :=
  { m_animations := [] }

/-- State threaded through `Coach::update`: the coach, the world `W` that the virtual call
`animation->update()` reads and writes (animation objects, drawables, clocks), and the record
`invoked` of the pointers whose `update` has been called, oldest first. -/
structure Frame (P W : Type) where
  coach : Coach P
  world : W
  invoked : List P

/-- The `for` loop of `Coach::update` from index `i` on. The virtual call `p->update()` in
world `w` is `upd p w`: the world it leaves and the flag it returns. -/
def Coach.updateLoop {P W : Type} (upd : P → W → W × Bool) (i : Nat) (f : Frame P W) :
    Frame P W :=
  if h : i < f.coach.m_animations.length then
    let p := f.coach.m_animations.get ⟨i, h⟩
    let r := upd p f.world
    if r.2 then
      Coach.updateLoop upd (i + 1)
        { coach := { m_animations := f.coach.m_animations.eraseIdx i }
          world := r.1, invoked := f.invoked ++ [p] }
    else
      Coach.updateLoop upd (i + 1)
        { coach := f.coach, world := r.1, invoked := f.invoked ++ [p] }
  else f
termination_by f.coach.m_animations.length - i
decreasing_by
  all_goals simp_wf
  · rw [List.length_eraseIdx]; split <;> omega
  · omega

/-- Translation of `Coach::update`, called in world `w`. -/
def Coach.update {P W : Type} (upd : P → W → W × Bool) (self : Coach P) (w : W) : Frame P W :=
  Coach.updateLoop upd 0 { coach := self, world := w, invoked := [] }

/-- The call `coach.playAnimation(animation)` in a frame: the body pushes to `m_animations`
and touches nothing else. -/
def Frame.playAnimation {P W : Type} (f : Frame P W) (animation : P) : Frame P W :=
  { coach := f.coach.playAnimation animation, world := f.world, invoked := f.invoked }

/-- The call `coach.stopAllAnimations()` in a frame: the body clears `m_animations` and touches
nothing else. -/
def Frame.stopAllAnimations {P W : Type} (f : Frame P W) : Frame P W :=
  { coach := f.coach.stopAllAnimations, world := f.world, invoked := f.invoked }

/-- The loop of `Coach::update` with every access checked and a bound on the number of
iterations: `none` when the bound `fuel` runs out before the loop condition fails, when
`m_animations[i]` is read past the end, or when `erase` is given a position past the end. -/
def Coach.updateLoopChecked {P W : Type} (upd : P → W → W × Bool) :
    Nat → Nat → Frame P W → Option (Frame P W)
  | 0, _, _ => none
  | fuel + 1, i, f =>
    if i < f.coach.m_animations.length then
      match f.coach.m_animations.get? i with
      | none => none
      | some p =>
        let r := upd p f.world
        if r.2 then
          if i < f.coach.m_animations.length then
            Coach.updateLoopChecked upd fuel (i + 1)
              { coach := { m_animations := f.coach.m_animations.eraseIdx i }
                world := r.1, invoked := f.invoked ++ [p] }
          else none
        else
          Coach.updateLoopChecked upd fuel (i + 1)
            { coach := f.coach, world := r.1, invoked := f.invoked ++ [p] }
    else some f

/-- Entries at the even positions 0, 2, 4, ... of a list. -/
def evens {α : Type} : List α → List α
  | [] => []
  | [a] => [a]
  | a :: _ :: rest => a :: evens rest

/-- Entries at the odd positions 1, 3, 5, ... of a list. -/
def odds {α : Type} : List α → List α
  | [] => []
  | [_] => []
  | _ :: b :: rest => b :: odds rest

/-- Flags returned by calling `update` on each pointer of `hist` in turn, starting from `w`,
each paired with its pointer. -/
def reports {P W : Type} (upd : P → W → W × Bool) (w : W) : List P → List (P × Bool)
  | [] => []
  | p :: ps => (p, (upd p w).2) :: reports upd (upd p w).1 ps

/-- Clock readings that never go back and whose successive gaps, starting from `t0`, stay
within the range of `sf::Int32` milliseconds. -/
def steadyReadings (t0 : Time) : List Time → Prop
  | [] => True
  | now :: rest => t0 ≤ now ∧ now - t0 < 2147483648000 ∧ steadyReadings now rest

/-- Closed form of the loop of `Coach::update` on the entries from the current index on: the
entries kept, the world left, and the pointers whose `update` was called. An entry that follows
an erased entry moves into the erased slot and the index steps over it. -/
def Coach.sweep {P W : Type} (upd : P → W → W × Bool) : List P → W → List P × W × List P
  | [], w => ([], w, [])
  | [a], w =>
    let r := upd a w
    (if r.2 then [] else [a], r.1, [a])
  | a :: b :: rest, w =>
    let r := upd a w
    if r.2 then
      let s := Coach.sweep upd rest r.1
      (b :: s.1, s.2.1, a :: s.2.2)
    else
      let s := Coach.sweep upd (b :: rest) r.1
      (a :: s.1, s.2.1, a :: s.2.2)

/-- World left by calling `update` on each pointer of `hist` in turn, starting from `w`. -/
def invokeAll {P W : Type} (upd : P → W → W × Bool) (w : W) : List P → W
  | [] => w
  | p :: ps => invokeAll upd (upd p w).1 ps

/-- Coach and world after `k` successive calls of `Coach::update`. -/
def Coach.updateN {P W : Type} (upd : P → W → W × Bool) : Nat → Coach P → W → Coach P × W
  | 0, c, w => (c, w)
  | k + 1, c, w =>
    let f := Coach.update upd c w
    Coach.updateN upd k f.coach f.world

/-- Budget of a collection after the invocations `hist`, when every animation completes from
its `(n + 1)`-th invocation on: one plus the invocations still allowed to report not-complete,
summed over the entries. -/
def budget {P : Type} [DecidableEq P] (n : Nat) (hist : List P) (l : List P) : Nat :=
  (l.map (fun p => n - hist.count p + 1)).sum

/-- State of the animation and of its drawable after a sequence of `update` calls made at the
clock readings `nows`. -/
def afterUpdates {A D : Type} (upd : A → Time → D → Outcome A D) (a : A) (d : D) :
    List Time → A × D
  | [] => (a, d)
  | now :: rest =>
    let o := upd a now d
    afterUpdates upd o.anim o.drawable rest

/-- Outcome of the `update` call made at the reading `now` after the calls made at the
readings `nows`. -/
def nthUpdate {A D : Type} (upd : A → Time → D → Outcome A D) (a : A) (d : D)
    (nows : List Time) (now : Time) : Outcome A D :=
  upd (afterUpdates upd a d nows).1 now (afterUpdates upd a d nows).2

/-- Time deltas, in seconds and in exact arithmetic, between successive clock readings, the
first one measured from the reading `t0`. -/
def deltas (t0 : Time) : List Time → List ℚ
  | [] => []
  | now :: rest => Time.asSecondsExact (now - t0) :: deltas now rest

/-- The circle of `test/Main.cpp`: radius 50, at (150, 150), filled green; the outline colour
is the library default, white. -/
def Main.shape : CircleShape :=
  { position := { x := 150, y := 150 }, rotation := 0, radius := 50
    fillColor := { r := 0, g := 255, b := 0, a := 255 }
    outlineColor := { r := 255, g := 255, b := 255, a := 255 } }

/-- The value of the literal `3.2f` of `test/Main.cpp`: the single-precision value nearest to
3.2, which is 13421773 * 2 ^ (-22). -/
def Main.delay : ℚ := 13421773 / 4194304

/-- A text used as an instance: character size 30, black, at the origin. -/
def Main.sampleText : Text :=
  { position := { x := 0, y := 0 }, rotation := 0, characterSize := 30
    fillColor := { r := 0, g := 0, b := 0, a := 255 }
    outlineColor := { r := 0, g := 0, b := 0, a := 255 } }

/-- A rectangle used as an instance: 10 by 20, black, at the origin. -/
def Main.sampleRect : RectangleShape :=
  { position := { x := 0, y := 0 }, rotation := 0, size := { x := 10, y := 20 }
    fillColor := { r := 0, g := 0, b := 0, a := 255 }
    outlineColor := { r := 0, g := 0, b := 0, a := 255 } }

/-- A world made of display animations on one circle: the animation objects (an `Animation*`
is an index into `anims`), the circle, and the reading of the wall clock. -/
structure DisplayWorld where
  anims : List (DisplayAnimation CircleShape)
  shape : CircleShape
  now : Time

/-- The virtual call `p->update()` in a `DisplayWorld`. -/
def DisplayWorld.invoke (p : Nat) (w : DisplayWorld) : DisplayWorld × Bool :=
  match w.anims.get? p with
  | none => (w, false)
  | some a =>
    let o := a.update w.now w.shape
    ({ w with anims := w.anims.set p o.anim, shape := o.drawable }, o.done)

/-- A world with two display animations on the circle of `test/Main.cpp`, both with delay 0 and
both built at reading 0: the first hides the circle, the second shows it. -/
def Main.twoDisplays : DisplayWorld :=
  { anims := [DisplayAnimation.new (CircleShape.createTarget Main.shape) 0 false 0,
              DisplayAnimation.new (CircleShape.createTarget Main.shape) 0 true 0]
    shape := Main.shape
    now := 0 }

/-- A world with three display animations on the circle of `test/Main.cpp`, all with delay 0
and all built at reading 0: the first and the third hide the circle, the second shows it. -/
def Main.threeDisplays : DisplayWorld :=
  { anims := [DisplayAnimation.new (CircleShape.createTarget Main.shape) 0 false 0,
              DisplayAnimation.new (CircleShape.createTarget Main.shape) 0 true 0,
              DisplayAnimation.new (CircleShape.createTarget Main.shape) 0 false 0]
    shape := Main.shape
    now := 0 }

/-- A world of counting animations: animation `p` has been invoked `w p` times and reports
completion once it has been invoked at least `p` times before. -/
def counterInvoke (p : Nat) (w : Nat → Nat) : (Nat → Nat) × Bool :=
  (Function.update w p (w p + 1), decide (p ≤ w p))

/-! ## Theorems -/

/-! ### Single-precision rounding -/

theorem roundHalfEven_bounds (x : ℚ) :
    Int.floor x ≤ roundHalfEven x ∧ roundHalfEven x ≤ Int.floor x + 1 := by
  unfold roundHalfEven
  split_ifs <;> constructor <;> omega

theorem roundHalfEven_intCast (n : Int) : roundHalfEven (n : ℚ) = n := by
  unfold roundHalfEven
  simp

theorem roundHalfEven_mono {x y : ℚ} (h : x ≤ y) : roundHalfEven x ≤ roundHalfEven y := by
  have hf : Int.floor x ≤ Int.floor y := Int.floor_mono h
  obtain ⟨bx1, bx2⟩ := roundHalfEven_bounds x
  obtain ⟨by1, by2⟩ := roundHalfEven_bounds y
  rcases lt_or_eq_of_le hf with hlt | heq
  · omega
  · unfold roundHalfEven
    rw [← heq]
    split_ifs <;> first | omega | (exfalso; linarith)

theorem roundHalfEven_eq_of_abs_lt (x : ℚ) (n : Int) (h : |x - (n : ℚ)| < 1 / 2) :
    roundHalfEven x = n := by
  obtain ⟨h1, h2⟩ := abs_lt.mp h
  by_cases hle : (n : ℚ) ≤ x
  · have hfl : Int.floor x = n := by
      rw [Int.floor_eq_iff]
      constructor
      · exact hle
      · linarith
    unfold roundHalfEven
    rw [hfl]
    rw [if_pos h2]
  · have hlt : x < (n : ℚ) := not_le.mp hle
    have hfl : Int.floor x = n - 1 := by
      rw [Int.floor_eq_iff]
      push_cast
      constructor <;> linarith
    unfold roundHalfEven
    rw [hfl]
    have h3 : ¬ (x - ((n - 1 : Int) : ℚ) < 1 / 2) := by push_cast; linarith
    have h4 : 1 / 2 < x - ((n - 1 : Int) : ℚ) := by push_cast; linarith
    rw [if_neg h3, if_pos h4]
    omega

theorem roundHalfEven_neg (x : ℚ) : roundHalfEven (-x) = -roundHalfEven x := by
  by_cases hint : (Int.floor x : ℚ) = x
  · rw [← hint, ← Int.cast_neg, roundHalfEven_intCast, roundHalfEven_intCast]
  · have hlt : (Int.floor x : ℚ) < x := lt_of_le_of_ne (Int.floor_le x) hint
    have hlt2 : x < (Int.floor x : ℚ) + 1 := Int.lt_floor_add_one x
    have hfl : Int.floor (-x) = -Int.floor x - 1 := by
      rw [Int.floor_eq_iff]
      push_cast
      constructor <;> linarith
    unfold roundHalfEven
    rw [hfl]
    push_cast
    split_ifs <;> first | omega | (exfalso; linarith)

theorem F32.ulp_pos (q : ℚ) : 0 < F32.ulp q := by
  unfold F32.ulp
  positivity

theorem F32.exponent_neg (q : ℚ) : F32.exponent (-q) = F32.exponent q := by
  unfold F32.exponent
  rw [abs_neg]

theorem F32.round_neg (q : ℚ) : F32.round (-q) = -F32.round q := by
  unfold F32.round F32.ulp
  rw [F32.exponent_neg, neg_div, roundHalfEven_neg]
  push_cast
  ring

theorem F32.round_zero : F32.round 0 = 0 := by
  unfold F32.round
  rw [zero_div]
  have := roundHalfEven_intCast 0
  simp only [Int.cast_zero] at this
  rw [this]
  simp

theorem F32.round_nonneg {q : ℚ} (h : 0 ≤ q) : 0 ≤ F32.round q := by
  unfold F32.round
  have hu := F32.ulp_pos q
  have hx : (0 : ℚ) ≤ q / F32.ulp q := div_nonneg h hu.le
  have hfl : (0 : Int) ≤ Int.floor (q / F32.ulp q) := Int.floor_nonneg.mpr hx
  have hr : (0 : Int) ≤ roundHalfEven (q / F32.ulp q) :=
    le_trans hfl (roundHalfEven_bounds _).1
  have hr2 : (0 : ℚ) ≤ (roundHalfEven (q / F32.ulp q) : ℚ) := by exact_mod_cast hr
  exact mul_nonneg hr2 hu.le

theorem F32.exponent_mono {q1 q2 : ℚ} (h0 : 0 < q1) (h : q1 ≤ q2) :
    F32.exponent q1 ≤ F32.exponent q2 := by
  unfold F32.exponent
  have h1 : |q1| = q1 := abs_of_pos h0
  have h2 : |q2| = q2 := abs_of_pos (lt_of_lt_of_le h0 h)
  rw [h1, h2]
  exact max_le_max (Int.log_mono_right h0 h) (le_refl _)

theorem F32.round_le_pow {q : ℚ} (h0 : 0 < q) :
    F32.round q ≤ (2 : ℚ) ^ (F32.exponent q + 1) := by
  have hu := F32.ulp_pos q
  have hlog : Int.log 2 q ≤ F32.exponent q := by
    unfold F32.exponent
    rw [abs_of_pos h0]
    exact le_max_left _ _
  have hq : q < (2 : ℚ) ^ (F32.exponent q + 1) := by
    have h1 := Int.lt_zpow_succ_log_self (b := 2) (by norm_num) q
    have h2 : ((2 : ℕ) : ℚ) ^ (Int.log 2 q + 1) ≤ ((2 : ℕ) : ℚ) ^ (F32.exponent q + 1) :=
      zpow_le_zpow_right₀ (by norm_num) (by omega)
    have h3 := lt_of_lt_of_le h1 h2
    simpa using h3
  have hsplit : (2 : ℚ) ^ (F32.exponent q + 1) = ((2 ^ 24 : Int) : ℚ) * F32.ulp q := by
    unfold F32.ulp
    have : F32.exponent q + 1 = 24 + (F32.exponent q - 23) := by ring
    rw [this, zpow_add₀ (by norm_num : (2 : ℚ) ≠ 0)]
    norm_num
  have hx : q / F32.ulp q ≤ ((2 ^ 24 : Int) : ℚ) := by
    rw [div_le_iff₀ hu, ← hsplit]
    exact hq.le
  have hr : roundHalfEven (q / F32.ulp q) ≤ 2 ^ 24 := by
    have := roundHalfEven_mono hx
    rwa [roundHalfEven_intCast] at this
  unfold F32.round
  rw [hsplit]
  have hr2 : (roundHalfEven (q / F32.ulp q) : ℚ) ≤ ((2 ^ 24 : Int) : ℚ) := by exact_mod_cast hr
  exact mul_le_mul_of_nonneg_right hr2 hu.le

theorem F32.pow_le_round {q : ℚ} (h0 : 0 < q) (hnormal : F32.exponent q = Int.log 2 q) :
    (2 : ℚ) ^ F32.exponent q ≤ F32.round q := by
  have hu := F32.ulp_pos q
  have hq : (2 : ℚ) ^ F32.exponent q ≤ q := by
    rw [hnormal]
    have h1 := Int.zpow_log_le_self (b := 2) (by norm_num) h0
    simpa using h1
  have hsplit : (2 : ℚ) ^ F32.exponent q = ((2 ^ 23 : Int) : ℚ) * F32.ulp q := by
    unfold F32.ulp
    have : F32.exponent q = 23 + (F32.exponent q - 23) := by ring
    conv_lhs => rw [this, zpow_add₀ (by norm_num : (2 : ℚ) ≠ 0)]
    norm_num
  have hx : ((2 ^ 23 : Int) : ℚ) ≤ q / F32.ulp q := by
    rw [le_div_iff₀ hu, ← hsplit]
    exact hq
  have hr : 2 ^ 23 ≤ roundHalfEven (q / F32.ulp q) := by
    have := roundHalfEven_mono hx
    rwa [roundHalfEven_intCast] at this
  unfold F32.round
  rw [hsplit]
  have hr2 : ((2 ^ 23 : Int) : ℚ) ≤ (roundHalfEven (q / F32.ulp q) : ℚ) := by exact_mod_cast hr
  exact mul_le_mul_of_nonneg_right hr2 hu.le

theorem F32.round_mono_of_pos {q1 q2 : ℚ} (h0 : 0 < q1) (h : q1 ≤ q2) :
    F32.round q1 ≤ F32.round q2 := by
  have h0' : 0 < q2 := lt_of_lt_of_le h0 h
  rcases lt_or_eq_of_le (F32.exponent_mono h0 h) with hlt | heq
  · have hnormal : F32.exponent q2 = Int.log 2 q2 := by
      have hge : -126 ≤ F32.exponent q1 := by unfold F32.exponent; exact le_max_right _ _
      unfold F32.exponent at hlt ⊢
      rw [abs_of_pos h0'] at hlt ⊢
      rcases max_cases (Int.log 2 q2) (-126) with ⟨hm, _⟩ | ⟨hm, _⟩
      · exact hm
      · rw [hm] at hlt; unfold F32.exponent at hge; omega
    refine le_trans (F32.round_le_pow h0) (le_trans ?_ (F32.pow_le_round h0' hnormal))
    exact zpow_le_zpow_right₀ (by norm_num) (by omega)
  · have hu : F32.ulp q1 = F32.ulp q2 := by unfold F32.ulp; rw [heq]
    unfold F32.round
    rw [hu]
    have hx : q1 / F32.ulp q2 ≤ q2 / F32.ulp q2 :=
      div_le_div_of_nonneg_right h (F32.ulp_pos q2).le
    have hr := roundHalfEven_mono hx
    have hr2 : (roundHalfEven (q1 / F32.ulp q2) : ℚ) ≤ (roundHalfEven (q2 / F32.ulp q2) : ℚ) := by
      exact_mod_cast hr
    exact mul_le_mul_of_nonneg_right hr2 (F32.ulp_pos q2).le

/-- Rounding to single precision is monotone. -/
theorem F32.round_mono {q1 q2 : ℚ} (h : q1 ≤ q2) : F32.round q1 ≤ F32.round q2 := by
  rcases lt_trichotomy q1 0 with h1 | h1 | h1
  · rcases lt_or_le q2 0 with h2 | h2
    · have := F32.round_mono_of_pos (neg_pos.mpr h2) (neg_le_neg h)
      rw [F32.round_neg, F32.round_neg] at this
      linarith
    · have a := F32.round_nonneg h2
      have b := F32.round_nonneg (neg_pos.mpr h1).le
      rw [F32.round_neg] at b
      linarith
  · rw [h1, F32.round_zero]
    exact F32.round_nonneg (h1 ▸ h)
  · exact F32.round_mono_of_pos h1 h

/-- Evaluation of the rounding: a value in the binade of exponent `e` whose quotient by the
spacing `2 ^ (e - 23)` is nearer than one half to the integer `n` rounds to `n * 2 ^ (e - 23)`. -/
theorem F32.round_eval (q : ℚ) (e n : Int) (he : -126 ≤ e) (hlo : (2 : ℚ) ^ e ≤ |q|)
    (hhi : |q| < (2 : ℚ) ^ (e + 1)) (hn : |q / (2 : ℚ) ^ (e - 23) - (n : ℚ)| < 1 / 2) :
    F32.round q = (n : ℚ) * (2 : ℚ) ^ (e - 23) := by
  have hpos : 0 < |q| := lt_of_lt_of_le (by positivity) hlo
  have hlog : Int.log 2 |q| = e := by
    apply le_antisymm
    · have := (Int.lt_zpow_iff_log_lt (b := 2) (by norm_num) hpos (x := e + 1)).mp
        (by simpa using hhi)
      omega
    · exact (Int.zpow_le_iff_le_log (b := 2) (by norm_num) hpos).mp (by simpa using hlo)
  have hexp : F32.exponent q = e := by
    unfold F32.exponent
    rw [hlog]
    exact max_eq_left he
  unfold F32.round F32.ulp
  rw [hexp, roundHalfEven_eq_of_abs_lt _ n hn]

theorem Time.asSeconds_zero : Time.asSeconds 0 = 0 := by
  unfold Time.asSeconds
  simp [F32.round_zero]

theorem Time.asSeconds_nonneg (t : Time) (h : 0 ≤ t) : 0 ≤ Time.asSeconds t := by
  unfold Time.asSeconds
  have h1 : (0 : ℚ) ≤ ((t : Int) : ℚ) := by exact_mod_cast h
  exact F32.round_nonneg (div_nonneg (F32.round_nonneg h1) (by norm_num))

/-- The reading of `asSeconds` does not decrease when the count of microseconds grows. -/
theorem Time.asSeconds_mono (s t : Time) (h : s ≤ t) : Time.asSeconds s ≤ Time.asSeconds t := by
  unfold Time.asSeconds
  have h1 : ((s : Int) : ℚ) ≤ ((t : Int) : ℚ) := by exact_mod_cast h
  exact F32.round_mono (div_le_div_of_nonneg_right (F32.round_mono h1) (by norm_num))

/-! ### The loop of `Coach::update` -/

theorem Coach.updateLoop_eq_sweep {P W : Type} (upd : P → W → W × Bool) :
    ∀ (n : Nat) (post pre : List P) (w : W) (log : List P), post.length ≤ n →
      Coach.updateLoop upd pre.length
          { coach := { m_animations := pre ++ post }, world := w, invoked := log } =
        { coach := { m_animations := pre ++ (Coach.sweep upd post w).1 }
          world := (Coach.sweep upd post w).2.1
          invoked := log ++ (Coach.sweep upd post w).2.2 } := by
  intro n
  induction n with
  | zero =>
    intro post pre w log h
    have : post = [] := List.length_eq_zero.mp (Nat.le_zero.mp h)
    subst this
    rw [Coach.updateLoop]
    simp [Coach.sweep]
  | succ n ih =>
    intro post pre w log h
    match post, h with
    | [], _ =>
      rw [Coach.updateLoop]
      simp [Coach.sweep]
    | [a], _ =>
      rw [Coach.updateLoop]
      have hlt : pre.length < (pre ++ [a]).length := by simp
      simp only [hlt, dite_true]
      have hget : (pre ++ [a]).get ⟨pre.length, hlt⟩ = a := by simp
      rw [hget]
      by_cases hr : (upd a w).2 = true
      · simp only [hr, if_true]
        have herase : (pre ++ [a]).eraseIdx pre.length = pre := by
          rw [List.eraseIdx_append_of_length_le (Nat.le_refl _)]
          simp
        rw [herase, Coach.updateLoop]
        simp [Coach.sweep, hr]
      · simp only [hr, if_false]
        have := ih [] (pre ++ [a]) (upd a w).1 (log ++ [a]) (by simp)
        simp only [List.length_append, List.length_singleton, List.append_nil] at this
        rw [this]
        simp [Coach.sweep, hr]
    | a :: b :: rest, h =>
      rw [Coach.updateLoop]
      have hlt : pre.length < (pre ++ a :: b :: rest).length := by simp
      simp only [hlt, dite_true]
      have hget : (pre ++ a :: b :: rest).get ⟨pre.length, hlt⟩ = a := by
        rw [List.get_eq_getElem, List.getElem_append_right (Nat.le_refl _)]
        simp
      rw [hget]
      by_cases hr : (upd a w).2 = true
      · simp only [hr, if_true]
        have herase : (pre ++ a :: b :: rest).eraseIdx pre.length = (pre ++ [b]) ++ rest := by
          rw [List.eraseIdx_append_of_length_le (Nat.le_refl _)]
          simp
        rw [herase]
        have := ih rest (pre ++ [b]) (upd a w).1 (log ++ [a])
          (by simp at h; omega)
        simp only [List.length_append, List.length_singleton] at this
        rw [this]
        simp [Coach.sweep, hr]
      · simp only [hr, if_false]
        have hsplit : pre ++ a :: b :: rest = (pre ++ [a]) ++ (b :: rest) := by simp
        rw [hsplit]
        have := ih (b :: rest) (pre ++ [a]) (upd a w).1 (log ++ [a])
          (by simp at h ⊢; omega)
        simp only [List.length_append, List.length_singleton] at this
        rw [this]
        simp [Coach.sweep, hr]

theorem Coach.update_eq_sweep {P W : Type} (upd : P → W → W × Bool) (c : Coach P) (w : W) :
    Coach.update upd c w =
      { coach := { m_animations := (Coach.sweep upd c.m_animations w).1 }
        world := (Coach.sweep upd c.m_animations w).2.1
        invoked := (Coach.sweep upd c.m_animations w).2.2 } := by
  have := Coach.updateLoop_eq_sweep upd c.m_animations.length c.m_animations [] w [] (Nat.le_refl _)
  simpa [Coach.update] using this

theorem invokeAll_append {P W : Type} (upd : P → W → W × Bool) (w : W) (h t : List P) :
    invokeAll upd w (h ++ t) = invokeAll upd (invokeAll upd w h) t := by
  induction h generalizing w with
  | nil => rfl
  | cons a h ih => simp [invokeAll, ih]

theorem budget_append_le {P : Type} [DecidableEq P] (n : Nat) (h t l : List P) :
    budget n (h ++ t) l ≤ budget n h l := by
  induction l with
  | nil => simp [budget]
  | cons a l ih =>
    simp only [budget, List.map_cons, List.sum_cons, List.count_append] at ih ⊢
    omega

theorem budget_cons {P : Type} [DecidableEq P] (n : Nat) (h : List P) (a : P) (l : List P) :
    budget n h (a :: l) = (n - h.count a + 1) + budget n h l := by
  simp [budget]

theorem budget_pos {P : Type} [DecidableEq P] (n : Nat) (h l : List P) (hl : l ≠ []) :
    0 < budget n h l := by
  cases l with
  | nil => exact absurd rfl hl
  | cons a l => rw [budget_cons]; omega

theorem exists_uniform_bound {P : Type} (Q : P → Nat → Prop)
    (mono : ∀ p n m, n ≤ m → Q p n → Q p m) :
    ∀ l : List P, (∀ p ∈ l, ∃ n, Q p n) → ∃ N, ∀ p ∈ l, Q p N := by
  intro l
  induction l with
  | nil => intro _; exact ⟨0, by simp⟩
  | cons a l ih =>
    intro h
    obtain ⟨N, hN⟩ := ih (fun p hp => h p (List.mem_cons_of_mem _ hp))
    obtain ⟨n, hn⟩ := h a (List.mem_cons_self _ _)
    refine ⟨max n N, ?_⟩
    intro p hp
    rcases List.mem_cons.mp hp with rfl | hp
    · exact mono _ _ _ (le_max_left _ _) hn
    · exact mono _ _ _ (le_max_right _ _) (hN p hp)

theorem Coach.sweep_budget {P W : Type} [DecidableEq P] (upd : P → W → W × Bool) (w0 : W)
    (anims : List P) (N : Nat)
    (hN : ∀ p ∈ anims, ∀ hist : List P, (∀ q ∈ hist, q ∈ anims) → N ≤ hist.count p →
      (upd p (invokeAll upd w0 hist)).2 = true) :
    ∀ (m : Nat) (l : List P) (h : List P), l.length ≤ m → (∀ q ∈ h, q ∈ anims) →
      (∀ q ∈ l, q ∈ anims) →
      (Coach.sweep upd l (invokeAll upd w0 h)).2.1 =
          invokeAll upd w0 (h ++ (Coach.sweep upd l (invokeAll upd w0 h)).2.2) ∧
        (∀ q ∈ (Coach.sweep upd l (invokeAll upd w0 h)).2.2, q ∈ anims) ∧
        (∀ q ∈ (Coach.sweep upd l (invokeAll upd w0 h)).1, q ∈ anims) ∧
        budget N (h ++ (Coach.sweep upd l (invokeAll upd w0 h)).2.2)
            (Coach.sweep upd l (invokeAll upd w0 h)).1 + (if l = [] then 0 else 1) ≤
          budget N h l := by
  intro m
  induction m with
  | zero =>
    intro l h hl _ _
    have : l = [] := List.length_eq_zero.mp (Nat.le_zero.mp hl)
    subst this
    simp [Coach.sweep, budget]
  | succ m ih =>
    intro l h hl hh hmem
    have step : ∀ a : P, invokeAll upd w0 (h ++ [a]) = (upd a (invokeAll upd w0 h)).1 := by
      intro a; rw [invokeAll_append]; rfl
    have notdone : ∀ a ∈ anims, (upd a (invokeAll upd w0 h)).2 ≠ true → h.count a < N := by
      intro a ha hr
      by_contra hc
      exact hr (hN a ha h hh (Nat.le_of_not_lt hc))
    match l, hl, hmem with
    | [], _, _ => simp [Coach.sweep, budget]
    | [a], _, hmem =>
      have ha : a ∈ anims := hmem a (List.mem_cons_self _ _)
      by_cases hr : (upd a (invokeAll upd w0 h)).2 = true
      · simp [Coach.sweep, hr, step, ha, budget]
      · have hc := notdone a ha hr
        have hsw : Coach.sweep upd [a] (invokeAll upd w0 h) =
            ([a], (upd a (invokeAll upd w0 h)).1, [a]) := by
          simp [Coach.sweep, hr]
        rw [hsw]
        refine ⟨(step a).symm, ?_, ?_, ?_⟩
        · simpa using ha
        · simpa using ha
        · simp [budget, List.count_append]
          omega
    | a :: b :: rest, hl, hmem =>
      have ha : a ∈ anims := hmem a (List.mem_cons_self _ _)
      have hb : b ∈ anims := hmem b (by simp)
      have hrest : ∀ q ∈ rest, q ∈ anims := fun q hq => hmem q (by simp [hq])
      have hh1 : ∀ q ∈ h ++ [a], q ∈ anims := by
        intro q hq
        rcases List.mem_append.mp hq with hq | hq
        · exact hh q hq
        · simp at hq; subst hq; exact ha
      by_cases hr : (upd a (invokeAll upd w0 h)).2 = true
      · obtain ⟨e1, e2, e3, e4⟩ := ih rest (h ++ [a]) (by simp at hl; omega) hh1 hrest
        rw [step] at e1 e2 e3 e4
        have hsw : Coach.sweep upd (a :: b :: rest) (invokeAll upd w0 h) =
            (b :: (Coach.sweep upd rest (upd a (invokeAll upd w0 h)).1).1,
              (Coach.sweep upd rest (upd a (invokeAll upd w0 h)).1).2.1,
              a :: (Coach.sweep upd rest (upd a (invokeAll upd w0 h)).1).2.2) := by
          simp [Coach.sweep, hr]
        rw [hsw]
        refine ⟨?_, ?_, ?_, ?_⟩
        · rw [e1]; simp
        · intro q hq
          rcases List.mem_cons.mp hq with rfl | hq
          · exact ha
          · exact e2 q hq
        · intro q hq
          rcases List.mem_cons.mp hq with rfl | hq
          · exact hb
          · exact e3 q hq
        · have hsplit : h ++ a :: (Coach.sweep upd rest (upd a (invokeAll upd w0 h)).1).2.2 =
              (h ++ [a]) ++ (Coach.sweep upd rest (upd a (invokeAll upd w0 h)).1).2.2 := by simp
          have m1 := budget_append_le N h [a] rest
          have m2 := budget_append_le N h
            (a :: (Coach.sweep upd rest (upd a (invokeAll upd w0 h)).1).2.2) [b]
          rw [hsplit] at m2 ⊢
          simp only [budget_cons] at m2 ⊢
          simp only [budget, List.map_nil, List.sum_nil] at m2
          simp only [List.cons_ne_nil, if_false]
          have : (if rest = [] then 0 else 1) ≥ 0 := Nat.zero_le _
          omega
      · have hc := notdone a ha hr
        obtain ⟨e1, e2, e3, e4⟩ := ih (b :: rest) (h ++ [a]) (by simp at hl ⊢; omega) hh1
          (fun q hq => hmem q (List.mem_cons_of_mem _ hq))
        rw [step] at e1 e2 e3 e4
        have hsw : Coach.sweep upd (a :: b :: rest) (invokeAll upd w0 h) =
            (a :: (Coach.sweep upd (b :: rest) (upd a (invokeAll upd w0 h)).1).1,
              (Coach.sweep upd (b :: rest) (upd a (invokeAll upd w0 h)).1).2.1,
              a :: (Coach.sweep upd (b :: rest) (upd a (invokeAll upd w0 h)).1).2.2) := by
          simp [Coach.sweep, hr]
        rw [hsw]
        refine ⟨?_, ?_, ?_, ?_⟩
        · rw [e1]; simp
        · intro q hq
          rcases List.mem_cons.mp hq with rfl | hq
          · exact ha
          · exact e2 q hq
        · intro q hq
          rcases List.mem_cons.mp hq with rfl | hq
          · exact ha
          · exact e3 q hq
        · have hsplit : h ++ a :: (Coach.sweep upd (b :: rest) (upd a (invokeAll upd w0 h)).1).2.2 =
              (h ++ [a]) ++ (Coach.sweep upd (b :: rest) (upd a (invokeAll upd w0 h)).1).2.2 := by
            simp
          have m1 := budget_append_le N h [a] (b :: rest)
          have hcount : h.count a + 1 ≤ List.count a
              (h ++ [a] ++ (Coach.sweep upd (b :: rest) (upd a (invokeAll upd w0 h)).1).2.2) := by
            simp [List.count_append]
          rw [hsplit, budget_cons, budget_cons N h a]
          simp only [List.cons_ne_nil, if_false] at e4 ⊢
          omega

/-- C1 fails on the code: with two registered display animations that both report completion
on their next update, one call of `Coach::update` invokes only the first (the second moves into
the erased slot and the index steps over it) and leaves the second in the collection, although
its `update` would report completion; the circle keeps the alpha 0 set by the first. -/
theorem coach_update_skips_successor :
    (Coach.update DisplayWorld.invoke { m_animations := [0, 1] } Main.twoDisplays).invoked
        = [0] ∧
      (Coach.update DisplayWorld.invoke { m_animations := [0, 1] }
        Main.twoDisplays).coach.m_animations = [1] ∧
      (DisplayWorld.invoke 1 (Coach.update DisplayWorld.invoke { m_animations := [0, 1] }
        Main.twoDisplays).world).2 = true ∧
      (Coach.update DisplayWorld.invoke { m_animations := [0, 1] }
        Main.twoDisplays).world.shape.fillColor.a = 0 := by
  have h0 : (DisplayWorld.invoke 0 Main.twoDisplays).2 = true := by
    simp [DisplayWorld.invoke, Main.twoDisplays, DisplayAnimation.update, DisplayAnimation.new,
      Clock.getElapsedTime, Time.asSeconds_zero]
  have hloop : Coach.update DisplayWorld.invoke { m_animations := [0, 1] } Main.twoDisplays =
      { coach := { m_animations := [1] }
        world := (DisplayWorld.invoke 0 Main.twoDisplays).1
        invoked := [0] } := by
    rw [Coach.update, Coach.updateLoop]
    simp only [List.length_cons, List.length_nil, Nat.zero_lt_succ, dite_true, List.get_eq_getElem,
      List.getElem_cons_zero, h0, if_true, List.eraseIdx_cons_zero, List.nil_append]
    rw [Coach.updateLoop]
    simp
  rw [hloop]
  refine ⟨rfl, rfl, ?_, ?_⟩
  · simp [DisplayWorld.invoke, Main.twoDisplays, DisplayAnimation.update, DisplayAnimation.new,
      Clock.getElapsedTime, Time.asSeconds_zero]
  · simp [DisplayWorld.invoke, Main.twoDisplays, DisplayAnimation.update, DisplayAnimation.new,
      Clock.getElapsedTime, Time.asSeconds_zero, CircleShape.createTarget]


theorem Coach.foldl_playAnimation {P : Type} (l : List P) (c : Coach P) :
    (l.foldl Coach.playAnimation c).m_animations = c.m_animations ++ l := by
  induction l generalizing c with
  | nil => simp
  | cons a l ih => simp [ih, Coach.playAnimation]

theorem Coach.updateN_empties {P W : Type} [DecidableEq P] (upd : P → W → W × Bool) (w0 : W)
    (anims : List P) (N : Nat)
    (hN : ∀ p ∈ anims, ∀ hist : List P, (∀ q ∈ hist, q ∈ anims) → N ≤ hist.count p →
      (upd p (invokeAll upd w0 hist)).2 = true) :
    ∀ (m : Nat) (c h : List P), (∀ q ∈ h, q ∈ anims) → (∀ q ∈ c, q ∈ anims) →
      budget N h c ≤ m →
      ∃ k, (Coach.updateN upd k { m_animations := c } (invokeAll upd w0 h)).1.m_animations = [] := by
  intro m
  induction m with
  | zero =>
    intro c h _ _ hb
    by_cases hc : c = []
    · exact ⟨0, by simp [Coach.updateN, hc]⟩
    · have := budget_pos N h c hc
      omega
  | succ m ih =>
    intro c h hh hc hb
    by_cases hnil : c = []
    · exact ⟨0, by simp [Coach.updateN, hnil]⟩
    · obtain ⟨e1, e2, e3, e4⟩ := Coach.sweep_budget upd w0 anims N hN c.length c h (Nat.le_refl _) hh hc
      simp only [hnil, if_false] at e4
      have hh2 : ∀ q ∈ h ++ (Coach.sweep upd c (invokeAll upd w0 h)).2.2, q ∈ anims := by
        intro q hq
        rcases List.mem_append.mp hq with hq | hq
        · exact hh q hq
        · exact e2 q hq
      obtain ⟨k, hk⟩ := ih _ _ hh2 e3 (by omega)
      refine ⟨k + 1, ?_⟩
      simp only [Coach.updateN, Coach.update_eq_sweep]
      rw [e1]
      exact hk

/-- C2: if each of the animations registered through `playAnimation` reports completion from
some invocation of its own `update` on (whatever other registered animations were invoked in
between), then some number of `Coach::update` calls leaves the collection empty. -/
theorem coach_update_eventually_empty {P W : Type} [DecidableEq P] (upd : P → W → W × Bool)
    (w0 : W) (anims : List P)
    (hfin : ∀ p ∈ anims, ∃ n, ∀ hist : List P, (∀ q ∈ hist, q ∈ anims) → n ≤ hist.count p →
      (upd p (invokeAll upd w0 hist)).2 = true) :
    ∃ k, (Coach.updateN upd k (anims.foldl Coach.playAnimation { m_animations := [] })
      w0).1.m_animations = [] := by
  obtain ⟨N, hN⟩ := exists_uniform_bound
    (fun p n => ∀ hist : List P, (∀ q ∈ hist, q ∈ anims) → n ≤ hist.count p →
      (upd p (invokeAll upd w0 hist)).2 = true)
    (fun p n m hnm hq hist hh hc => hq hist hh (Nat.le_trans hnm hc)) anims hfin
  have hreg : anims.foldl Coach.playAnimation { m_animations := [] } =
      ({ m_animations := anims } : Coach P) := by
    have := Coach.foldl_playAnimation anims { m_animations := [] }
    cases hc : anims.foldl Coach.playAnimation { m_animations := [] } with
    | mk l => rw [hc] at this; simpa using this
  rw [hreg]
  exact Coach.updateN_empties upd w0 anims N hN (budget N [] anims) anims []
    (by simp) (fun q hq => hq) (Nat.le_refl _)

theorem counterInvoke_invokeAll (hist : List Nat) (w : Nat → Nat) (p : Nat) :
    invokeAll counterInvoke w hist p = w p + hist.count p := by
  induction hist generalizing w with
  | nil => simp [invokeAll]
  | cons q hist ih =>
    rw [invokeAll, ih]
    by_cases hq : q = p
    · subst hq
      simp [counterInvoke]
      omega
    · have hq2 : p ≠ q := fun h => hq h.symm
      simp [counterInvoke, Function.update, hq, hq2, List.count_cons]

/-- Witness for C2: three counting animations registered in the order 2, 0, 1; animation `p`
reports not-complete at its first `p` invocations and completion from then on. -/
theorem coach_update_eventually_empty_witness :
    ∃ k, (Coach.updateN counterInvoke k
      ([2, 0, 1].foldl Coach.playAnimation { m_animations := [] })
      (fun _ => 0)).1.m_animations = [] :=
  coach_update_eventually_empty counterInvoke (fun _ => 0) [2, 0, 1]
    (fun p _ => ⟨p, fun hist _ hc => by
      simp only [counterInvoke, counterInvoke_invokeAll, decide_eq_true_eq]
      omega⟩)

/-! ### Target facade -/

/-- C10: the size setter of the target built from a sprite returns the sprite it is applied to
unchanged, whatever the value passed and whatever the sprite's state at the call: position,
rotation and colour are as before, and the target itself, its colour fields included, is the
same after the call. -/
theorem sprite_setSize_noop (sprite s : Sprite) (v : Vector2f) :
    (Sprite.createTarget sprite).invokeSetSize v s = (Sprite.createTarget sprite, s) ∧
      (Sprite.createTarget sprite).setSize v s = s ∧
      ((Sprite.createTarget sprite).setSize v s).position = s.position ∧
      ((Sprite.createTarget sprite).setSize v s).rotation = s.rotation ∧
      ((Sprite.createTarget sprite).setSize v s).color = s.color :=
  ⟨rfl, rfl, rfl, rfl, rfl⟩

/-! ### Sequences of update calls -/

/-- The outcomes of a run extended by one call are the outcomes of the run followed by the
outcome of that call. -/
theorem runUpdates_append {A D : Type} (upd : A → Time → D → Outcome A D) (a : A) (d : D)
    (nows : List Time) (now : Time) :
    runUpdates upd a d (nows ++ [now]) = runUpdates upd a d nows ++ [nthUpdate upd a d nows now] := by
  induction nows generalizing a d with
  | nil => simp [runUpdates, nthUpdate, afterUpdates]
  | cons n1 rest ih =>
    have h := ih (upd a n1 d).anim (upd a n1 d).drawable
    rw [List.cons_append]
    show upd a n1 d :: runUpdates upd (upd a n1 d).anim (upd a n1 d).drawable (rest ++ [now]) =
      upd a n1 d :: runUpdates upd (upd a n1 d).anim (upd a n1 d).drawable rest ++
        [nthUpdate upd a d (n1 :: rest) now]
    rw [h]
    rfl

/-! ### Display animation -/

theorem Time.asSeconds_one_second : Time.asSeconds (1000000 - 0) = 1 := by
  unfold Time.asSeconds
  have h1 : F32.round (((1000000 - 0 : Int) : ℚ)) = 1000000 := by
    rw [F32.round_eval _ 19 16000000 (by norm_num) (by norm_num [abs_of_nonneg])
      (by norm_num [abs_of_nonneg]) (by norm_num [abs_lt])]
    norm_num
  rw [h1, F32.round_eval _ 0 8388608 (by norm_num) (by norm_num [abs_of_nonneg])
    (by norm_num [abs_of_nonneg]) (by norm_num [abs_lt])]
  norm_num

theorem Time.asSeconds_test_delay : Time.asSeconds (3200000 - 0) = Main.delay := by
  unfold Time.asSeconds Main.delay
  have h1 : F32.round (((3200000 - 0 : Int) : ℚ)) = 3200000 := by
    rw [F32.round_eval _ 21 12800000 (by norm_num) (by norm_num [abs_of_nonneg])
      (by norm_num [abs_of_nonneg]) (by norm_num [abs_lt])]
    norm_num
  rw [h1, F32.round_eval _ 1 13421773 (by norm_num) (by norm_num [abs_of_nonneg])
    (by norm_num [abs_of_nonneg]) (by norm_num [abs_lt])]
  norm_num

theorem Time.asSeconds_four_seconds : Time.asSeconds (4000000 - 0) = 4 := by
  unfold Time.asSeconds
  have h1 : F32.round (((4000000 - 0 : Int) : ℚ)) = 4000000 := by
    rw [F32.round_eval _ 21 16000000 (by norm_num) (by norm_num [abs_of_nonneg])
      (by norm_num [abs_of_nonneg]) (by norm_num [abs_lt])]
    norm_num
  rw [h1, F32.round_eval _ 2 8388608 (by norm_num) (by norm_num [abs_of_nonneg])
    (by norm_num [abs_of_nonneg]) (by norm_num [abs_lt])]
  norm_num

/-- The reading of `asSeconds` for 99.999999 s is 100: the count 99999999 is not a
single-precision value and converts to 100000000. -/
theorem Time.asSeconds_just_below_hundred : Time.asSeconds (99999999 - 0) = 100 := by
  unfold Time.asSeconds
  have h1 : F32.round (((99999999 - 0 : Int) : ℚ)) = 100000000 := by
    rw [F32.round_eval _ 26 12500000 (by norm_num) (by norm_num [abs_of_nonneg])
      (by norm_num [abs_of_nonneg]) (by norm_num [abs_lt])]
    norm_num
  rw [h1, F32.round_eval _ 6 13107200 (by norm_num) (by norm_num [abs_of_nonneg])
    (by norm_num [abs_of_nonneg]) (by norm_num [abs_lt])]
  norm_num

/-- Counterexample to C3: a `DisplayAnimation` with delay 100 s updated 99.999999 s after
construction. The elapsed time is less than the delay, yet the call returns complete and applies
the colour: the elapsed time is read in single precision and the reading is 100. -/
theorem display_update_counterexample :
    Time.asSecondsExact (99999999 - 0) < 100 ∧
      ((DisplayAnimation.new (CircleShape.createTarget Main.shape) 100 false 0).update 99999999
        Main.shape).done = true ∧
      ((DisplayAnimation.new (CircleShape.createTarget Main.shape) 100 false 0).update 99999999
        Main.shape).drawable.fillColor.a = 0 := by
  have hfire : (100 : ℚ) ≤ Time.asSeconds (99999999 - 0) := by
    rw [Time.asSeconds_just_below_hundred]
  refine ⟨by norm_num [Time.asSecondsExact], ?_, ?_⟩
  · simp only [DisplayAnimation.update, DisplayAnimation.new, Clock.getElapsedTime, ge_iff_le]
    rw [if_pos hfire]
  · simp only [DisplayAnimation.update, DisplayAnimation.new, Clock.getElapsedTime, ge_iff_le]
    rw [if_pos hfire]
    rfl

/-- C3, amended: a `DisplayAnimation` with delay `delay` and flag `show_`, updated when the
single-precision reading that `asSeconds` gives for the time elapsed since construction is `t`:
if `t < delay` the call returns not-complete and leaves the drawable as it was (no setter is
applied); if `t ≥ delay` it returns complete and applies to the primary colour setter a colour
whose alpha is 255 when `show_` is true and 0 when it is false. The call never changes the
animation, so this holds at every call. A delay `≤ 0` fires on any call made at or after
construction. -/
theorem display_update_spec {D : Type} (target : Target D) (delay : ℚ) (show_ : Bool)
    (t0 now : Time) (d : D) :
    ((DisplayAnimation.new target delay show_ t0).update now d).anim =
        DisplayAnimation.new target delay show_ t0 ∧
      (Time.asSeconds (now - t0) < delay →
        ((DisplayAnimation.new target delay show_ t0).update now d).done = false ∧
        ((DisplayAnimation.new target delay show_ t0).update now d).drawable = d) ∧
      (delay ≤ Time.asSeconds (now - t0) →
        ((DisplayAnimation.new target delay show_ t0).update now d).done = true ∧
        ((DisplayAnimation.new target delay show_ t0).update now d).drawable =
          target.setColor { r := 255, g := 255, b := 255, a := if show_ then 255 else 0 } d) ∧
      (delay ≤ 0 → t0 ≤ now →
        ((DisplayAnimation.new target delay show_ t0).update now d).done = true) := by
  have hshow : show_.toNat * 255 = if show_ then 255 else 0 := by cases show_ <;> rfl
  refine ⟨?_, ?_, ?_, ?_⟩
  · unfold DisplayAnimation.update
    split <;> rfl
  · intro h
    have h' : ¬ (delay ≤ Time.asSeconds (now - t0)) := not_le.mpr h
    simp [DisplayAnimation.update, DisplayAnimation.new, Clock.getElapsedTime, h']
  · intro h
    simp [DisplayAnimation.update, DisplayAnimation.new, Clock.getElapsedTime, h, hshow]
  · intro hd hnow
    have h : delay ≤ Time.asSeconds (now - t0) :=
      le_trans hd (Time.asSeconds_nonneg _ (Int.sub_nonneg.mpr hnow))
    simp [DisplayAnimation.update, DisplayAnimation.new, Clock.getElapsedTime, h]

/-- Witness for C3, amended: the animation of `test/Main.cpp` (delay `3.2f`, `show` defaulted
to false) updated 3.2 s after construction returns complete and leaves the circle's fill alpha
at 0; updated 1 s after construction it returns not-complete and leaves the circle as it
was. -/
theorem display_update_spec_witness :
    ((DisplayAnimation.new (CircleShape.createTarget Main.shape) Main.delay false 0).update
        3200000 Main.shape).done = true ∧
      ((DisplayAnimation.new (CircleShape.createTarget Main.shape) Main.delay false 0).update
        3200000 Main.shape).drawable.fillColor.a = 0 ∧
      ((DisplayAnimation.new (CircleShape.createTarget Main.shape) Main.delay false 0).update
        1000000 Main.shape).done = false ∧
      ((DisplayAnimation.new (CircleShape.createTarget Main.shape) Main.delay false 0).update
        1000000 Main.shape).drawable = Main.shape := by
  have hfire := (display_update_spec (CircleShape.createTarget Main.shape) Main.delay false 0
    3200000 Main.shape).2.2.1 (by rw [Time.asSeconds_test_delay])
  have hwait := (display_update_spec (CircleShape.createTarget Main.shape) Main.delay false 0
    1000000 Main.shape).2.1 (by rw [Time.asSeconds_one_second]; norm_num [Main.delay])
  refine ⟨hfire.1, ?_, hwait.1, hwait.2⟩
  rw [hfire.2]
  rfl

/-- C4 fails on the code: a `DisplayAnimation` with the flag `show` set, on the green circle of
`test/Main.cpp` with the delay `3.2f`, fires 3.2 s after construction and applies
`Color(255, 255, 255, 255)`: the circle is shown white, its red and blue channels changed from
0 to 255, while the colour of the target is green. -/
theorem display_fire_paints_white :
    ((DisplayAnimation.new (CircleShape.createTarget Main.shape) Main.delay true 0).update
        3200000 Main.shape).done = true ∧
      ((DisplayAnimation.new (CircleShape.createTarget Main.shape) Main.delay true 0).update
        3200000 Main.shape).drawable.fillColor = { r := 255, g := 255, b := 255, a := 255 } ∧
      (CircleShape.createTarget Main.shape).color = { r := 0, g := 255, b := 0, a := 255 } ∧
      ((DisplayAnimation.new (CircleShape.createTarget Main.shape) Main.delay true 0).update
        3200000 Main.shape).drawable.fillColor.r ≠
          (CircleShape.createTarget Main.shape).color.r := by
  have hfire : Main.delay ≤ Time.asSeconds (3200000 - 0) := by
    rw [Time.asSeconds_test_delay]
  have hupd : (DisplayAnimation.new (CircleShape.createTarget Main.shape) Main.delay true
      0).update 3200000 Main.shape =
      { anim := DisplayAnimation.new (CircleShape.createTarget Main.shape) Main.delay true 0
        drawable := (CircleShape.createTarget Main.shape).setColor
          { r := 255, g := 255, b := 255, a := true.toNat * 255 } Main.shape
        done := true } := by
    simp only [DisplayAnimation.update, DisplayAnimation.new, Clock.getElapsedTime, ge_iff_le]
    rw [if_pos hfire]
  rw [hupd]
  refine ⟨rfl, rfl, rfl, ?_⟩
  show (255 : Nat) ≠ 0
  decide

/-! ### Fade animation -/

theorem Color.ofInteger_toInteger (c : Color) (h : c.valid) :
    Color.ofInteger c.toInteger = c := by
  obtain ⟨hr, hg, hb, ha⟩ := h
  cases c with
  | mk r g b a =>
    simp only [Color.ofInteger, Color.toInteger] at *
    congr 1 <;> omega

theorem addUint8_cast (a : Nat) (way : Int) :
    ((addUint8 a way : Nat) : Int) = ((a : Int) + way) % 256 := by
  unfold addUint8
  exact Int.toNat_of_nonneg (Int.emod_nonneg _ (by norm_num))

theorem FadeAnimation.initBlock_fields {D : Type} (self : FadeAnimation D) (d : D) :
    (self.initBlock d).1.m_target = self.m_target ∧
      (self.initBlock d).1.m_clock = self.m_clock ∧
      (self.initBlock d).1.m_step = self.m_step ∧
      (self.initBlock d).1.m_way = self.m_way ∧
      (self.initBlock d).1.m_color = self.m_color ∧
      (self.initBlock d).1.m_steps = self.m_steps := by
  unfold FadeAnimation.initBlock
  split <;> exact ⟨rfl, rfl, rfl, rfl, rfl, rfl⟩

/-- What one call of `FadeAnimation::update` does to the fields, from any state. Either no step
is taken and counter and working colour are unchanged, or one step is taken: the counter grows
by one, the working alpha moves by `m_way` modulo 256, and the working colour is the colour
last applied to both colour setters. -/
theorem FadeAnimation.update_fields {D : Type} (self : FadeAnimation D) (now : Time) (d : D) :
    (self.update now d).anim.m_target = self.m_target ∧
      (self.update now d).anim.m_way = self.m_way ∧
      (self.update now d).anim.m_step = self.m_step ∧
      (self.update now d).anim.m_color.r = self.m_color.r ∧
      (self.update now d).anim.m_color.g = self.m_color.g ∧
      (self.update now d).anim.m_color.b = self.m_color.b ∧
      ((self.update now d).done = true ↔ 255 ≤ (self.update now d).anim.m_steps) ∧
      (((self.update now d).anim.m_steps = self.m_steps ∧
          (self.update now d).anim.m_color = self.m_color) ∨
        ((self.update now d).anim.m_steps = self.m_steps + 1 ∧
          (((self.update now d).anim.m_color.a : Nat) : Int) =
            ((self.m_color.a : Int) + self.m_way) % 256 ∧
          (self.update now d).drawable =
            self.m_target.setSecondaryColor (self.update now d).anim.m_color
              (self.m_target.setColor (self.update now d).anim.m_color
                (self.initBlock d).2))) := by
  obtain ⟨i1, i2, i3, i4, i5, i6⟩ := FadeAnimation.initBlock_fields self d
  by_cases hstep : ((self.initBlock d).1.m_clock.getElapsedTime now).asMilliseconds ≥
      (self.initBlock d).1.m_step
  · have hu : self.update now d =
        { anim := { (self.initBlock d).1 with
                    m_color := { (self.initBlock d).1.m_color with
                      a := addUint8 (self.initBlock d).1.m_color.a (self.initBlock d).1.m_way }
                    m_clock := ((self.initBlock d).1.m_clock.restart now).2
                    m_steps := (self.initBlock d).1.m_steps + 1 }
          drawable := (self.initBlock d).1.m_target.setSecondaryColor
            { (self.initBlock d).1.m_color with
              a := addUint8 (self.initBlock d).1.m_color.a (self.initBlock d).1.m_way }
            ((self.initBlock d).1.m_target.setColor
              { (self.initBlock d).1.m_color with
                a := addUint8 (self.initBlock d).1.m_color.a (self.initBlock d).1.m_way }
              (self.initBlock d).2)
          done := decide ((self.initBlock d).1.m_steps + 1 ≥ 255) } := by
      simp only [FadeAnimation.update, FadeAnimation.stepBlock, if_pos hstep]
    rw [hu]
    simp [i1, i3, i4, i5, i6, addUint8_cast]
  · have hu : self.update now d =
        { anim := (self.initBlock d).1, drawable := (self.initBlock d).2
          done := decide ((self.initBlock d).1.m_steps ≥ 255) } := by
      simp only [FadeAnimation.update, FadeAnimation.stepBlock, if_neg hstep]
    rw [hu]
    simp [i1, i3, i4, i5, i6]

/-- State of a `FadeAnimation` after any sequence of `update` calls: target, direction and the
red, green and blue of the working colour are unchanged, the counter has grown by at most the
number of calls, and the working alpha has moved by `m_way` times the growth of the counter,
modulo 256. -/
theorem FadeAnimation.afterUpdates_fields {D : Type} (a : FadeAnimation D) (d : D)
    (nows : List Time) :
    (afterUpdates FadeAnimation.update a d nows).1.m_target = a.m_target ∧
      (afterUpdates FadeAnimation.update a d nows).1.m_way = a.m_way ∧
      (afterUpdates FadeAnimation.update a d nows).1.m_color.r = a.m_color.r ∧
      (afterUpdates FadeAnimation.update a d nows).1.m_color.g = a.m_color.g ∧
      (afterUpdates FadeAnimation.update a d nows).1.m_color.b = a.m_color.b ∧
      a.m_steps ≤ (afterUpdates FadeAnimation.update a d nows).1.m_steps ∧
      (afterUpdates FadeAnimation.update a d nows).1.m_steps ≤ a.m_steps + nows.length ∧
      (((afterUpdates FadeAnimation.update a d nows).1.m_color.a : Nat) : Int) ≡
        (a.m_color.a : Int) +
          a.m_way * ((afterUpdates FadeAnimation.update a d nows).1.m_steps - a.m_steps)
        [ZMOD 256] := by
  induction nows generalizing a d with
  | nil =>
    refine ⟨rfl, rfl, rfl, rfl, rfl, ?_, ?_, ?_⟩
    · simp [afterUpdates]
    · simp [afterUpdates]
    · simp [afterUpdates]
  | cons now rest ih =>
    obtain ⟨u1, u2, _, u4, u5, u6, _, u8⟩ := FadeAnimation.update_fields a now d
    obtain ⟨h1, h2, h3, h4, h5, h6, h7, h8⟩ := ih (a.update now d).anim (a.update now d).drawable
    simp only [afterUpdates, List.length_cons, Nat.cast_add, Nat.cast_one]
    refine ⟨h1.trans u1, h2.trans u2, h3.trans u4, h4.trans u5, h5.trans u6, ?_, ?_, ?_⟩
    · rcases u8 with ⟨e, _⟩ | ⟨e, _, _⟩ <;> omega
    · rcases u8 with ⟨e, _⟩ | ⟨e, _, _⟩ <;> omega
    · rcases u8 with ⟨e, ec⟩ | ⟨e, ec, _⟩
      · rw [e, ec, u2] at h8
        exact h8
      · rw [e, u2] at h8
        have hc : (((a.update now d).anim.m_color.a : Nat) : Int) ≡
            (a.m_color.a : Int) + a.m_way [ZMOD 256] := by
          rw [ec]; exact Int.mod_modEq _ _
        refine (h8.trans (Int.ModEq.add_right _ hc)).trans ?_
        have : (a.m_color.a : Int) + a.m_way +
            a.m_way * ((afterUpdates FadeAnimation.update (a.update now d).anim
              (a.update now d).drawable rest).1.m_steps - (a.m_steps + 1)) =
            (a.m_color.a : Int) + a.m_way *
              ((afterUpdates FadeAnimation.update (a.update now d).anim
                (a.update now d).drawable rest).1.m_steps - a.m_steps) := by ring
        rw [this]

/-- As long as no call has reported completion, the counter is below 255. -/
theorem FadeAnimation.steps_lt_of_not_done {D : Type} (a : FadeAnimation D) (d : D)
    (nows : List Time) (h0 : a.m_steps < 255)
    (hnot : ∀ o ∈ runUpdates FadeAnimation.update a d nows, o.done = false) :
    (afterUpdates FadeAnimation.update a d nows).1.m_steps < 255 := by
  induction nows generalizing a d with
  | nil => simpa [afterUpdates] using h0
  | cons now rest ih =>
    simp only [runUpdates, List.mem_cons, forall_eq_or_imp] at hnot
    obtain ⟨_, _, _, _, _, _, u7, _⟩ := FadeAnimation.update_fields a now d
    have hlt : (a.update now d).anim.m_steps < 255 := by
      by_contra hc
      have := u7.mpr (not_lt.mp hc)
      rw [hnot.1] at this
      exact Bool.false_ne_true this
    simpa [afterUpdates] using ih (a.update now d).anim (a.update now d).drawable hlt hnot.2

/-- C6: the step counter of a `FadeAnimation` starts at 0; one `update` call, from any state
and at any clock reading, never decreases it and increases it by at most one, and reports
completion exactly when the counter it leaves is at least 255; at the first call of a run that
reports completion the counter is exactly 255, and that call is at least the 255th. -/
theorem fade_step_counter_spec {D : Type} (target : Target D) (time : ℚ) (fadeIn : Bool)
    (t0 : Time) (flag0 : Bool) (d0 : D) (self : FadeAnimation D) (d : D) (nows : List Time)
    (now : Time) :
    (FadeAnimation.new target time fadeIn t0 flag0).m_steps = 0 ∧
      self.m_steps ≤ (self.update now d).anim.m_steps ∧
      (self.update now d).anim.m_steps ≤ self.m_steps + 1 ∧
      ((self.update now d).done = true ↔ 255 ≤ (self.update now d).anim.m_steps) ∧
      ((∀ o ∈ runUpdates FadeAnimation.update (FadeAnimation.new target time fadeIn t0 flag0)
            d0 nows, o.done = false) →
        (nthUpdate FadeAnimation.update (FadeAnimation.new target time fadeIn t0 flag0) d0 nows
            now).done = true →
        (nthUpdate FadeAnimation.update (FadeAnimation.new target time fadeIn t0 flag0) d0 nows
            now).anim.m_steps = 255 ∧
          255 ≤ nows.length + 1) := by
  obtain ⟨_, _, _, _, _, _, u7, u8⟩ := FadeAnimation.update_fields self now d
  refine ⟨rfl, ?_, ?_, u7, ?_⟩
  · rcases u8 with ⟨e, _⟩ | ⟨e, _, _⟩ <;> omega
  · rcases u8 with ⟨e, _⟩ | ⟨e, _, _⟩ <;> omega
  · intro hnot hdone
    have hlt := FadeAnimation.steps_lt_of_not_done
      (FadeAnimation.new target time fadeIn t0 flag0) d0 nows (by simp [FadeAnimation.new]) hnot
    obtain ⟨_, _, _, _, _, _, hle, _⟩ := FadeAnimation.afterUpdates_fields
      (FadeAnimation.new target time fadeIn t0 flag0) d0 nows
    obtain ⟨_, _, _, _, _, _, v7, v8⟩ := FadeAnimation.update_fields
      (afterUpdates FadeAnimation.update (FadeAnimation.new target time fadeIn t0 flag0) d0
        nows).1 now
      (afterUpdates FadeAnimation.update (FadeAnimation.new target time fadeIn t0 flag0) d0
        nows).2
    have hge := v7.mp hdone
    have h0 : (FadeAnimation.new target time fadeIn t0 flag0).m_steps = 0 := rfl
    rw [h0] at hle
    simp only [nthUpdate]
    rcases v8 with ⟨e, _⟩ | ⟨e, _, _⟩ <;> omega

/-- At the first call of a run that reports completion, a step is taken: the working colour is
applied to both colour setters, its red, green and blue are those of the target's colour field,
and its alpha is the alpha of that field moved 255 times by the direction, modulo 256. -/
theorem FadeAnimation.first_completion {D : Type} (target : Target D) (time : ℚ)
    (fadeIn : Bool) (t0 : Time) (flag0 : Bool) (d0 : D) (nows : List Time) (now : Time)
    (hnot : ∀ o ∈ runUpdates FadeAnimation.update (FadeAnimation.new target time fadeIn t0 flag0)
      d0 nows, o.done = false)
    (hdone : (nthUpdate FadeAnimation.update (FadeAnimation.new target time fadeIn t0 flag0) d0
      nows now).done = true) :
    ∃ dmid : D,
      (nthUpdate FadeAnimation.update (FadeAnimation.new target time fadeIn t0 flag0) d0 nows
          now).drawable =
        target.setSecondaryColor
          (nthUpdate FadeAnimation.update (FadeAnimation.new target time fadeIn t0 flag0) d0 nows
            now).anim.m_color
          (target.setColor
            (nthUpdate FadeAnimation.update (FadeAnimation.new target time fadeIn t0 flag0) d0
              nows now).anim.m_color dmid) ∧
      (((nthUpdate FadeAnimation.update (FadeAnimation.new target time fadeIn t0 flag0) d0 nows
          now).anim.m_color.a : Nat) : Int) =
        ((target.color.a : Int) + 255 * (if fadeIn then 1 else -1)) % 256 ∧
      (nthUpdate FadeAnimation.update (FadeAnimation.new target time fadeIn t0 flag0) d0 nows
          now).anim.m_color.r = target.color.r ∧
      (nthUpdate FadeAnimation.update (FadeAnimation.new target time fadeIn t0 flag0) d0 nows
          now).anim.m_color.g = target.color.g ∧
      (nthUpdate FadeAnimation.update (FadeAnimation.new target time fadeIn t0 flag0) d0 nows
          now).anim.m_color.b = target.color.b := by
  have hlt := FadeAnimation.steps_lt_of_not_done
    (FadeAnimation.new target time fadeIn t0 flag0) d0 nows (by simp [FadeAnimation.new]) hnot
  obtain ⟨h1, h2, h3, h4, h5, _, _, h8⟩ := FadeAnimation.afterUpdates_fields
    (FadeAnimation.new target time fadeIn t0 flag0) d0 nows
  obtain ⟨_, _, _, v4, v5, v6, v7, v8⟩ := FadeAnimation.update_fields
    (afterUpdates FadeAnimation.update (FadeAnimation.new target time fadeIn t0 flag0) d0
      nows).1 now
    (afterUpdates FadeAnimation.update (FadeAnimation.new target time fadeIn t0 flag0) d0
      nows).2
  have hge := v7.mp hdone
  simp only [nthUpdate]
  rcases v8 with ⟨e, _⟩ | ⟨e, ec, ed⟩
  · omega
  · have hs : (afterUpdates FadeAnimation.update (FadeAnimation.new target time fadeIn t0 flag0)
        d0 nows).1.m_steps = 254 := by omega
    refine ⟨((afterUpdates FadeAnimation.update (FadeAnimation.new target time fadeIn t0 flag0)
      d0 nows).1.initBlock (afterUpdates FadeAnimation.update
        (FadeAnimation.new target time fadeIn t0 flag0) d0 nows).2).2, ?_, ?_, ?_, ?_, ?_⟩
    · rw [ed, h1]; rfl
    · rw [ec, h2]
      rw [hs] at h8
      have h9 := Int.ModEq.add_right (FadeAnimation.new target time fadeIn t0 flag0).m_way h8
      have hnew : (FadeAnimation.new target time fadeIn t0 flag0).m_way =
          (if fadeIn then 1 else -1) := rfl
      have hcol : (FadeAnimation.new target time fadeIn t0 flag0).m_color = target.color := rfl
      have hz : (FadeAnimation.new target time fadeIn t0 flag0).m_steps = 0 := rfl
      rw [hnew, hcol, hz] at h9
      rw [hnew]
      unfold Int.ModEq at h9
      rw [h9]
      congr 1
      ring
    · rw [v4, h3]; rfl
    · rw [v5, h4]; rfl
    · rw [v6, h5]; rfl

/-- A fade with a zero step interval, updated at the very reading its clock was started at,
takes a step. -/
theorem FadeAnimation.update_zero_interval {D : Type} (a : FadeAnimation D) (d : D)
    (hstep : a.m_step = 0) (hclock : a.m_clock.m_startTime = 0) :
    (a.update 0 d).anim.m_steps = a.m_steps + 1 ∧ (a.update 0 d).anim.m_step = 0 ∧
      (a.update 0 d).anim.m_clock.m_startTime = 0 := by
  obtain ⟨_, i2, i3, _, _, i6⟩ := FadeAnimation.initBlock_fields a d
  have hcond : ((a.initBlock d).1.m_clock.getElapsedTime 0).asMilliseconds ≥
      (a.initBlock d).1.m_step := by
    rw [i2, i3, hstep]
    simp [Clock.getElapsedTime, hclock, Time.asMilliseconds, toInt32]
  simp only [FadeAnimation.update, FadeAnimation.stepBlock, if_pos hcond]
  simp [i6, i3, hstep, Clock.restart]

/-- A fade with a zero step interval updated `n` times at the reading its clock was started
at: the counter grows by `n`, and no call reports completion while the counter stays below
255. -/
theorem FadeAnimation.run_zero_interval {D : Type} (n : Nat) (a : FadeAnimation D) (d : D)
    (hstep : a.m_step = 0) (hclock : a.m_clock.m_startTime = 0) (hlt : a.m_steps + n < 255) :
    (∀ o ∈ runUpdates FadeAnimation.update a d (List.replicate n 0), o.done = false) ∧
      (afterUpdates FadeAnimation.update a d (List.replicate n 0)).1.m_steps = a.m_steps + n ∧
      (afterUpdates FadeAnimation.update a d (List.replicate n 0)).1.m_step = 0 ∧
      (afterUpdates FadeAnimation.update a d (List.replicate n 0)).1.m_clock.m_startTime = 0 := by
  induction n generalizing a d with
  | zero => simp [runUpdates, afterUpdates, hstep, hclock]
  | succ n ih =>
    obtain ⟨z1, z2, z3⟩ := FadeAnimation.update_zero_interval a d hstep hclock
    obtain ⟨_, _, _, _, _, _, u7, _⟩ := FadeAnimation.update_fields a 0 d
    obtain ⟨r1, r2, r3, r4⟩ := ih (a.update 0 d).anim (a.update 0 d).drawable z2 z3
      (by rw [z1]; push_cast at hlt ⊢; omega)
    simp only [List.replicate_succ, runUpdates, afterUpdates, List.mem_cons, forall_eq_or_imp]
    refine ⟨⟨?_, r1⟩, ?_, r3, r4⟩
    · cases hd : (a.update 0 d).done with
      | false => rfl
      | true =>
        have := u7.mp hd
        rw [z1] at this
        push_cast at hlt
        omega
    · rw [r2, z1]; push_cast; ring

theorem truncToLong_zero : truncToLong ((0 * 1000) / 255) = 0 := by
  simp [truncToLong]

theorem truncToLong_two_seconds : truncToLong ((2 * 1000) / 255) = 7 := by
  have h : (0 : ℚ) ≤ (2 * 1000) / 255 := by norm_num
  rw [truncToLong, if_pos h, Int.floor_eq_iff]
  constructor <;> norm_num

/-- The run used as an instance for the fade: the circle of `test/Main.cpp` (alpha 255) faded
in over a duration of 0 seconds, with every update made at the reading of construction. The
first 254 calls report not-complete and the 255th reports completion. -/
theorem Main.fadeIn_run :
    (∀ o ∈ runUpdates FadeAnimation.update
        (FadeAnimation.new (CircleShape.createTarget Main.shape) 0 true 0 false) Main.shape
        (List.replicate 254 0), o.done = false) ∧
      (nthUpdate FadeAnimation.update
        (FadeAnimation.new (CircleShape.createTarget Main.shape) 0 true 0 false) Main.shape
        (List.replicate 254 0) 0).done = true := by
  have hstep : (FadeAnimation.new (CircleShape.createTarget Main.shape) 0 true 0 false).m_step
      = 0 := truncToLong_zero
  obtain ⟨r1, r2, r3, r4⟩ := FadeAnimation.run_zero_interval 254
    (FadeAnimation.new (CircleShape.createTarget Main.shape) 0 true 0 false) Main.shape
    hstep rfl (by simp [FadeAnimation.new])
  refine ⟨r1, ?_⟩
  obtain ⟨z1, _, _⟩ := FadeAnimation.update_zero_interval _
    (afterUpdates FadeAnimation.update
      (FadeAnimation.new (CircleShape.createTarget Main.shape) 0 true 0 false) Main.shape
      (List.replicate 254 0)).2 r3 r4
  obtain ⟨_, _, _, _, _, _, u7, _⟩ := FadeAnimation.update_fields
    (afterUpdates FadeAnimation.update
      (FadeAnimation.new (CircleShape.createTarget Main.shape) 0 true 0 false) Main.shape
      (List.replicate 254 0)).1 0
    (afterUpdates FadeAnimation.update
      (FadeAnimation.new (CircleShape.createTarget Main.shape) 0 true 0 false) Main.shape
      (List.replicate 254 0)).2
  refine u7.mpr ?_
  rw [z1, r2]
  simp [FadeAnimation.new]

/-- The run used as an instance for the fade out: the circle of `test/Main.cpp` (alpha 255) faded
out over a duration of 0 seconds, with every update made at the reading of construction. The
first 254 calls report not-complete and the 255th reports completion. -/
theorem Main.fadeOut_run :
    (∀ o ∈ runUpdates FadeAnimation.update
        (FadeAnimation.new (CircleShape.createTarget Main.shape) 0 false 0 false) Main.shape
        (List.replicate 254 0), o.done = false) ∧
      (nthUpdate FadeAnimation.update
        (FadeAnimation.new (CircleShape.createTarget Main.shape) 0 false 0 false) Main.shape
        (List.replicate 254 0) 0).done = true := by
  have hstep : (FadeAnimation.new (CircleShape.createTarget Main.shape) 0 false 0 false).m_step
      = 0 := truncToLong_zero
  obtain ⟨r1, r2, r3, r4⟩ := FadeAnimation.run_zero_interval 254
    (FadeAnimation.new (CircleShape.createTarget Main.shape) 0 false 0 false) Main.shape
    hstep rfl (by simp [FadeAnimation.new])
  refine ⟨r1, ?_⟩
  obtain ⟨z1, _, _⟩ := FadeAnimation.update_zero_interval _
    (afterUpdates FadeAnimation.update
      (FadeAnimation.new (CircleShape.createTarget Main.shape) 0 false 0 false) Main.shape
      (List.replicate 254 0)).2 r3 r4
  obtain ⟨_, _, _, _, _, _, u7, _⟩ := FadeAnimation.update_fields
    (afterUpdates FadeAnimation.update
      (FadeAnimation.new (CircleShape.createTarget Main.shape) 0 false 0 false) Main.shape
      (List.replicate 254 0)).1 0
    (afterUpdates FadeAnimation.update
      (FadeAnimation.new (CircleShape.createTarget Main.shape) 0 false 0 false) Main.shape
      (List.replicate 254 0)).2
  refine u7.mpr ?_
  rw [z1, r2]
  simp [FadeAnimation.new]

/-- Counterexample to C7: the circle of `test/Main.cpp` (alpha 255) faded in over a duration of
0 seconds, every update made at the reading of construction. The 255th call is the first to
report completion, and the alpha it applies to the circle is 254, not 255 + 255. -/
theorem fade_completion_alpha_counterexample :
    (∀ o ∈ runUpdates FadeAnimation.update
        (FadeAnimation.new (CircleShape.createTarget Main.shape) 0 true 0 false) Main.shape
        (List.replicate 254 0), o.done = false) ∧
      (nthUpdate FadeAnimation.update
        (FadeAnimation.new (CircleShape.createTarget Main.shape) 0 true 0 false) Main.shape
        (List.replicate 254 0) 0).done = true ∧
      (nthUpdate FadeAnimation.update
        (FadeAnimation.new (CircleShape.createTarget Main.shape) 0 true 0 false) Main.shape
        (List.replicate 254 0) 0).drawable.fillColor.a = 254 ∧
      ¬ ((((nthUpdate FadeAnimation.update
          (FadeAnimation.new (CircleShape.createTarget Main.shape) 0 true 0 false) Main.shape
          (List.replicate 254 0) 0).drawable.fillColor.a : Nat) : Int) =
        ((CircleShape.createTarget Main.shape).color.a : Int) + 255) := by
  obtain ⟨hnot, hdone⟩ := Main.fadeIn_run
  have key : ∀ o : Outcome (FadeAnimation CircleShape) CircleShape,
      (∃ dmid : CircleShape, o.drawable =
          (CircleShape.createTarget Main.shape).setSecondaryColor o.anim.m_color
            ((CircleShape.createTarget Main.shape).setColor o.anim.m_color dmid) ∧
        ((o.anim.m_color.a : Nat) : Int) = ((255 : Int) + 255 * 1) % 256) →
      o.drawable.fillColor.a = 254 := by
    rintro ⟨anim, drawable, done⟩ ⟨dmid, hd, ha⟩
    simp only at hd ha
    rw [hd]
    show anim.m_color.a = 254
    have h254 : ((255 : Int) + 255 * 1) % 256 = 254 := by decide
    rw [h254] at ha
    exact_mod_cast ha
  obtain ⟨dmid, hd, ha, _, _, _⟩ := FadeAnimation.first_completion
    (CircleShape.createTarget Main.shape) 0 true 0 false Main.shape (List.replicate 254 0) 0
    hnot hdone
  have hfill := key _ ⟨dmid, hd, ha⟩
  refine ⟨hnot, hdone, hfill, ?_⟩
  rw [hfill]
  decide

/-- C7, amended: for a target colour field of alpha `a0 = 0` when fading in, or `a0 = 255`
when fading out, at the update call where a `FadeAnimation` first reports completion the colour
it last applied to both colour setters has alpha `a0 + 255` (that is 255) when fading in and
`a0 - 255` (that is 0) when fading out. Nothing is stated for the other initial alphas. -/
theorem fade_completion_alpha_spec {D : Type} (target : Target D) (time : ℚ) (fadeIn : Bool)
    (t0 : Time) (flag0 : Bool) (d0 : D) (nows : List Time) (now : Time)
    (hstart : (fadeIn = true ∧ target.color.a = 0) ∨ (fadeIn = false ∧ target.color.a = 255))
    (hnot : ∀ o ∈ runUpdates FadeAnimation.update (FadeAnimation.new target time fadeIn t0 flag0)
      d0 nows, o.done = false)
    (hdone : (nthUpdate FadeAnimation.update (FadeAnimation.new target time fadeIn t0 flag0) d0
      nows now).done = true) :
    ∃ (c : Color) (dmid : D),
      (nthUpdate FadeAnimation.update (FadeAnimation.new target time fadeIn t0 flag0) d0 nows
          now).drawable = target.setSecondaryColor c (target.setColor c dmid) ∧
        (fadeIn = true → ((c.a : Nat) : Int) = (target.color.a : Int) + 255) ∧
        (fadeIn = false → ((c.a : Nat) : Int) = (target.color.a : Int) - 255) := by
  obtain ⟨dmid, hd, ha, _, _, _⟩ := FadeAnimation.first_completion target time fadeIn t0 flag0
    d0 nows now hnot hdone
  refine ⟨_, dmid, hd, ?_, ?_⟩
  · intro hf
    rcases hstart with ⟨_, h0⟩ | ⟨hf2, _⟩
    · rw [ha, hf, h0]
      decide
    · rw [hf] at hf2
      exact absurd hf2 (by decide)
  · intro hf
    rcases hstart with ⟨hf2, _⟩ | ⟨_, h0⟩
    · rw [hf] at hf2
      exact absurd hf2 (by decide)
    · rw [ha, hf, h0]
      decide

/-- Witness for C7, amended: the circle of `test/Main.cpp` (alpha 255) faded out over a
duration of 0 seconds, every update made at the reading of construction. -/
theorem fade_completion_alpha_spec_witness :
    (((false = true ∧ (CircleShape.createTarget Main.shape).color.a = 0) ∨
        (false = false ∧ (CircleShape.createTarget Main.shape).color.a = 255)) ∧
      (∀ o ∈ runUpdates FadeAnimation.update
        (FadeAnimation.new (CircleShape.createTarget Main.shape) 0 false 0 false) Main.shape
        (List.replicate 254 0), o.done = false) ∧
      (nthUpdate FadeAnimation.update
        (FadeAnimation.new (CircleShape.createTarget Main.shape) 0 false 0 false) Main.shape
        (List.replicate 254 0) 0).done = true) ∧
    ∃ (c : Color) (dmid : CircleShape),
      (nthUpdate FadeAnimation.update
          (FadeAnimation.new (CircleShape.createTarget Main.shape) 0 false 0 false) Main.shape
          (List.replicate 254 0) 0).drawable =
        (CircleShape.createTarget Main.shape).setSecondaryColor c
          ((CircleShape.createTarget Main.shape).setColor c dmid) ∧
        (false = true →
          ((c.a : Nat) : Int) = ((CircleShape.createTarget Main.shape).color.a : Int) + 255) ∧
        (false = false →
          ((c.a : Nat) : Int) = ((CircleShape.createTarget Main.shape).color.a : Int) - 255) :=
  ⟨⟨Or.inr ⟨rfl, rfl⟩, Main.fadeOut_run.1, Main.fadeOut_run.2⟩,
    fade_completion_alpha_spec (CircleShape.createTarget Main.shape) 0 false 0 false Main.shape
      (List.replicate 254 0) 0 (Or.inr ⟨rfl, rfl⟩) Main.fadeOut_run.1 Main.fadeOut_run.2⟩

/-! ### Move animation in exact arithmetic -/

theorem Vector2f.lerp_eq (s e : Vector2f) (p : ℚ) :
    s + (e - s) * p = e + (e - s) * (p - 1) := by
  cases s with
  | mk sx sy =>
    cases e with
    | mk ex ey =>
      show Vector2f.mk (sx + (ex - sx) * p) (sy + (ey - sy) * p) =
        Vector2f.mk (ex + (ex - sx) * (p - 1)) (ey + (ey - sy) * (p - 1))
      congr 1 <;> ring

theorem Vector2f.add_def (u v : Vector2f) : u + v = { x := u.x + v.x, y := u.y + v.y } := rfl

theorem Vector2f.sub_def (u v : Vector2f) : u - v = { x := u.x - v.x, y := u.y - v.y } := rfl

theorem Vector2f.mul_def (u : Vector2f) (k : ℚ) : u * k = { x := u.x * k, y := u.y * k } := rfl

theorem deltas_cons (t0 now : Time) (rest : List Time) :
    deltas t0 (now :: rest) = Time.asSecondsExact (now - t0) :: deltas now rest := rfl

theorem deltas_sum (t0 : Time) (nows : List Time) (now : Time) :
    (deltas t0 (nows ++ [now])).sum = Time.asSecondsExact (now - t0) := by
  induction nows generalizing t0 with
  | nil => simp [deltas]
  | cons a l ih =>
    rw [List.cons_append, deltas_cons, List.sum_cons, ih]
    simp only [Time.asSecondsExact]
    push_cast
    ring

/-- State of a `MoveAnimation` after any sequence of `update` calls: target, speed and end
points are unchanged, and the factor the next call computes is the speed times the sum of the
time deltas up to that call. -/
theorem MoveAnimation.afterUpdates_state {D : Type} (a : MoveAnimation D) (d : D)
    (nows : List Time) (now : Time) :
    (afterUpdates MoveAnimation.updateExact a d nows).1.m_target = a.m_target ∧
      (afterUpdates MoveAnimation.updateExact a d nows).1.m_speed = a.m_speed ∧
      (afterUpdates MoveAnimation.updateExact a d nows).1.m_start = a.m_start ∧
      (afterUpdates MoveAnimation.updateExact a d nows).1.m_end = a.m_end ∧
      (afterUpdates MoveAnimation.updateExact a d nows).1.m_factor +
          Time.asSecondsExact
            (now - (afterUpdates MoveAnimation.updateExact a d nows).1.m_clock.m_startTime) *
            (afterUpdates MoveAnimation.updateExact a d nows).1.m_speed =
        a.m_factor + a.m_speed * (deltas a.m_clock.m_startTime (nows ++ [now])).sum := by
  induction nows generalizing a d with
  | nil =>
    refine ⟨rfl, rfl, rfl, rfl, ?_⟩
    simp only [afterUpdates, List.nil_append, deltas, List.sum_cons, List.sum_nil]
    ring
  | cons n1 rest ih =>
    obtain ⟨h1, h2, h3, h4, h5⟩ := ih (MoveAnimation.updateExact a n1 d).anim
      (MoveAnimation.updateExact a n1 d).drawable
    simp only [afterUpdates]
    refine ⟨h1, h2, h3, h4, ?_⟩
    rw [h5, List.cons_append, deltas_cons, List.sum_cons]
    simp only [MoveAnimation.updateExact, Clock.restart]
    ring

/-- C8: in exact rational arithmetic, the position a `MoveAnimation` applies at its `n`-th
update (the update made at reading
`now` after the `n - 1` updates made at the readings `nows`) is
`start + (end - start) * (speed * (d1 + ... + dn))`, the `di` being the time deltas between
successive updates and `d1` being measured from construction. Instances: from (0,0) to (100,0)
at speed 1 the position after 0.5 s is (50,0); the move of `test/Main.cpp`, from (100,100) to
(300,300) at speed 0.4, is at (200,200) after 1.25 s. -/
theorem move_position_spec {D : Type} (target : Target D) (start end_ : Vector2f) (speed : ℚ)
    (t0 : Time) (d0 : D) (nows : List Time) (now : Time) :
    (nthUpdate MoveAnimation.updateExact (MoveAnimation.new target start end_ speed t0 d0).1
        (MoveAnimation.new target start end_ speed t0 d0).2 nows now).drawable =
      target.setPosition (start + (end_ - start) * (speed * (deltas t0 (nows ++ [now])).sum))
        (afterUpdates MoveAnimation.updateExact (MoveAnimation.new target start end_ speed t0 d0).1
          (MoveAnimation.new target start end_ speed t0 d0).2 nows).2 ∧
    ((nthUpdate MoveAnimation.updateExact
        (MoveAnimation.new (CircleShape.createTarget Main.shape)
          { x := 0, y := 0 } { x := 100, y := 0 } 1 0 Main.shape).1
        (MoveAnimation.new (CircleShape.createTarget Main.shape)
          { x := 0, y := 0 } { x := 100, y := 0 } 1 0 Main.shape).2
        [] 500000).drawable.position = { x := 50, y := 0 }) ∧
    ((nthUpdate MoveAnimation.updateExact
        (MoveAnimation.new (CircleShape.createTarget Main.shape)
          { x := 100, y := 100 } { x := 300, y := 300 } (2 / 5) 0 Main.shape).1
        (MoveAnimation.new (CircleShape.createTarget Main.shape)
          { x := 100, y := 100 } { x := 300, y := 300 } (2 / 5) 0 Main.shape).2
        [500000] 1250000).drawable.position = { x := 200, y := 200 }) := by
  refine ⟨?_, ?_, ?_⟩
  · obtain ⟨h1, _, h3, h4, h5⟩ := MoveAnimation.afterUpdates_state
      (MoveAnimation.new target start end_ speed t0 d0).1
      (MoveAnimation.new target start end_ speed t0 d0).2 nows now
    simp only [nthUpdate, MoveAnimation.updateExact, Clock.restart]
    rw [h1, h3, h4, h5]
    simp [MoveAnimation.new]
  · simp only [nthUpdate, afterUpdates, MoveAnimation.updateExact, MoveAnimation.new, Clock.restart,
      CircleShape.createTarget, Time.asSecondsExact, Vector2f.add_def, Vector2f.sub_def,
      Vector2f.mul_def]
    congr 1 <;> norm_num
  · simp only [nthUpdate, afterUpdates, MoveAnimation.updateExact, MoveAnimation.new, Clock.restart,
      CircleShape.createTarget, Time.asSecondsExact, Vector2f.add_def, Vector2f.sub_def,
      Vector2f.mul_def]
    congr 1 <;> norm_num

/-! ### Move animation in single precision -/

theorem F32.round_one : F32.round 1 = 1 := by
  rw [F32.round_eval _ 0 8388608 (by norm_num) (by norm_num [abs_of_nonneg])
    (by norm_num [abs_of_nonneg]) (by norm_num [abs_lt])]
  norm_num

theorem F32.round_three_halves : F32.round (3 / 2) = 3 / 2 := by
  rw [F32.round_eval _ 0 12582912 (by norm_num) (by norm_num [abs_of_nonneg])
    (by norm_num [abs_of_nonneg]) (by norm_num [abs_lt])]
  norm_num

theorem F32.round_hundred : F32.round 100 = 100 := by
  rw [F32.round_eval _ 6 13107200 (by norm_num) (by norm_num [abs_of_nonneg])
    (by norm_num [abs_of_nonneg]) (by norm_num [abs_lt])]
  norm_num

theorem F32.round_hundred_fifty : F32.round 150 = 150 := by
  rw [F32.round_eval _ 7 9830400 (by norm_num) (by norm_num [abs_of_nonneg])
    (by norm_num [abs_of_nonneg]) (by norm_num [abs_lt])]
  norm_num

theorem Time.asSeconds_one_and_a_half : Time.asSeconds (1500000 - 0) = 3 / 2 := by
  unfold Time.asSeconds
  have h1 : F32.round (((1500000 - 0 : Int) : ℚ)) = 1500000 := by
    rw [F32.round_eval _ 20 12000000 (by norm_num) (by norm_num [abs_of_nonneg])
      (by norm_num [abs_of_nonneg]) (by norm_num [abs_lt])]
    norm_num
  rw [h1]
  norm_num [F32.round_three_halves]

/-- The reading of `asSeconds` for 127.999999 s is 128: the count 127999999 is not a
single-precision value and converts to 128000000. -/
theorem Time.asSeconds_just_below_128 : Time.asSeconds (127999999 - 0) = 128 := by
  unfold Time.asSeconds
  have h1 : F32.round (((127999999 - 0 : Int) : ℚ)) = 128000000 := by
    rw [F32.round_eval _ 26 16000000 (by norm_num) (by norm_num [abs_of_nonneg])
      (by norm_num [abs_of_nonneg]) (by norm_num [abs_lt])]
    norm_num
  rw [h1, F32.round_eval _ 7 8388608 (by norm_num) (by norm_num [abs_of_nonneg])
    (by norm_num [abs_of_nonneg]) (by norm_num [abs_lt])]
  norm_num

/-- Counterexample to C9: a move at speed 1/128 updated once, 127.999999 s after construction.
The speed times the cumulative elapsed time is below 1, yet the call reports completion: the
elapsed time is read in single precision as 128 s and the factor is exactly 1. -/
theorem move_completion_counterexample :
    (1 / 128 : ℚ) * (deltas 0 ([] ++ [127999999])).sum < 1 ∧
      (nthUpdate MoveAnimation.update
        (MoveAnimation.new (CircleShape.createTarget Main.shape)
          { x := 0, y := 0 } { x := 100, y := 0 } (1 / 128) 0 Main.shape).1
        (MoveAnimation.new (CircleShape.createTarget Main.shape)
          { x := 0, y := 0 } { x := 100, y := 0 } (1 / 128) 0 Main.shape).2
        [] 127999999).done = true := by
  constructor
  · norm_num [deltas, Time.asSecondsExact]
  · simp only [nthUpdate, afterUpdates, MoveAnimation.update, MoveAnimation.new, Clock.restart,
      Time.asSeconds_just_below_128, decide_eq_true_eq]
    norm_num [F32.round_one]

/-- C9, amended: in the single-precision arithmetic of the code, an update of a `MoveAnimation`
replaces the factor, which starts at 0, by the rounded sum of the factor and of the rounded
product of the elapsed time that `asSeconds` reads since the previous call with the speed, and
it reports completion exactly when this factor is at least 1 (which need not agree with the
speed times the cumulative elapsed time being at least 1). The factor is not clamped: the
position applied is `start + (end - start) * factor` evaluated with that factor, so when
completion is reported each coordinate is at or beyond the value the same expression has at
factor 1, in the direction from `start` to `end`. It can be strictly past `end`: from (0,0) to
(100,0) at speed 1, a single update after 1.5 s reports completion with the position at
(150,0). The statement is for calls none of whose float operations overflows. -/
theorem move_completion_spec {D : Type} (self : MoveAnimation D) (now : Time) (d : D)
    (target : Target D) (start end_ : Vector2f) (speed : ℚ) (t0 : Time)
    (hrange : self.inRange now) :
    (MoveAnimation.new target start end_ speed t0 d).1.m_factor = 0 ∧
      (self.update now d).anim.m_factor =
        F32.round (self.m_factor +
          F32.round (Time.asSeconds (now - self.m_clock.m_startTime) * self.m_speed)) ∧
      ((self.update now d).done = true ↔ 1 ≤ (self.update now d).anim.m_factor) ∧
      (self.update now d).drawable =
        self.m_target.setPosition (self.positionAt (self.update now d).anim.m_factor) d ∧
      (∀ f : ℚ, self.positionAt f =
        { x := F32.round (self.m_start.x + F32.round (F32.round (self.m_end.x - self.m_start.x) * f))
          y := F32.round
            (self.m_start.y + F32.round (F32.round (self.m_end.y - self.m_start.y) * f)) }) ∧
      (F32.finite (self.positionAt (self.update now d).anim.m_factor).x ∧
        F32.finite (self.positionAt (self.update now d).anim.m_factor).y) ∧
      ((self.update now d).done = true →
        (0 ≤ (Vector2f.fsub self.m_end self.m_start).x →
          (self.positionAt 1).x ≤ (self.positionAt (self.update now d).anim.m_factor).x) ∧
        ((Vector2f.fsub self.m_end self.m_start).x ≤ 0 →
          (self.positionAt (self.update now d).anim.m_factor).x ≤ (self.positionAt 1).x) ∧
        (0 ≤ (Vector2f.fsub self.m_end self.m_start).y →
          (self.positionAt 1).y ≤ (self.positionAt (self.update now d).anim.m_factor).y) ∧
        ((Vector2f.fsub self.m_end self.m_start).y ≤ 0 →
          (self.positionAt (self.update now d).anim.m_factor).y ≤ (self.positionAt 1).y)) ∧
      ((self.update now d).anim.m_target = self.m_target ∧
        (self.update now d).anim.m_speed = self.m_speed ∧
        (self.update now d).anim.m_start = self.m_start ∧
        (self.update now d).anim.m_end = self.m_end ∧
        (self.update now d).anim.m_clock.m_startTime = now) ∧
      ((nthUpdate MoveAnimation.update
          (MoveAnimation.new (CircleShape.createTarget Main.shape)
            { x := 0, y := 0 } { x := 100, y := 0 } 1 0 Main.shape).1
          (MoveAnimation.new (CircleShape.createTarget Main.shape)
            { x := 0, y := 0 } { x := 100, y := 0 } 1 0 Main.shape).2
          [] 1500000).done = true ∧
        (nthUpdate MoveAnimation.update
          (MoveAnimation.new (CircleShape.createTarget Main.shape)
            { x := 0, y := 0 } { x := 100, y := 0 } 1 0 Main.shape).1
          (MoveAnimation.new (CircleShape.createTarget Main.shape)
            { x := 0, y := 0 } { x := 100, y := 0 } 1 0 Main.shape).2
          [] 1500000).drawable.position = { x := 150, y := 0 }) := by
  have hdone : (self.update now d).done = true ↔ 1 ≤ (self.update now d).anim.m_factor := by
    simp only [MoveAnimation.update, decide_eq_true_eq, ge_iff_le]
  have hbeyond : ∀ s e f : ℚ, 1 ≤ f →
      (0 ≤ F32.round (e - s) →
        F32.round (s + F32.round (F32.round (e - s) * 1)) ≤
          F32.round (s + F32.round (F32.round (e - s) * f))) ∧
      (F32.round (e - s) ≤ 0 →
        F32.round (s + F32.round (F32.round (e - s) * f)) ≤
          F32.round (s + F32.round (F32.round (e - s) * 1))) := by
    intro s e f hf
    constructor
    · intro h0
      apply F32.round_mono
      have := F32.round_mono (mul_le_mul_of_nonneg_left hf h0)
      linarith
    · intro h0
      apply F32.round_mono
      have := F32.round_mono (mul_le_mul_of_nonpos_left hf h0)
      linarith
  obtain ⟨_, _, _, _, _, _, r7, r8⟩ := hrange
  refine ⟨rfl, rfl, hdone, rfl, fun _ => rfl, ⟨r7, r8⟩, ?_, ⟨rfl, rfl, rfl, rfl, rfl⟩, ?_, ?_⟩
  · intro hd
    have hf := hdone.mp hd
    obtain ⟨x1, x2⟩ := hbeyond self.m_start.x self.m_end.x _ hf
    obtain ⟨y1, y2⟩ := hbeyond self.m_start.y self.m_end.y _ hf
    exact ⟨x1, x2, y1, y2⟩
  · simp only [nthUpdate, afterUpdates, MoveAnimation.update, MoveAnimation.new, Clock.restart,
      Time.asSeconds_one_and_a_half, decide_eq_true_eq]
    norm_num [F32.round_three_halves]
  · simp only [nthUpdate, afterUpdates, MoveAnimation.update, MoveAnimation.new, Clock.restart,
      Time.asSeconds_one_and_a_half, MoveAnimation.positionAt, Vector2f.fadd, Vector2f.fmul,
      Vector2f.fsub, CircleShape.createTarget]
    norm_num [F32.round_three_halves, F32.round_hundred, F32.round_hundred_fifty, F32.round_zero]

/-- A single update, 1.5 s after construction, of the move from (0,0) to (100,0) at speed 1 on
the circle of `test/Main.cpp`: no float operation of the call overflows. -/
theorem Main.move_inRange :
    (MoveAnimation.new (CircleShape.createTarget Main.shape)
      { x := 0, y := 0 } { x := 100, y := 0 } 1 0 Main.shape).1.inRange 1500000 := by
  simp only [MoveAnimation.inRange, MoveAnimation.new, Clock.restart,
    Time.asSeconds_one_and_a_half, MoveAnimation.positionAt, Vector2f.fadd, Vector2f.fmul,
    Vector2f.fsub, F32.finite, F32.maxFinite]
  norm_num [F32.round_three_halves, F32.round_hundred, F32.round_hundred_fifty, F32.round_zero,
    abs_of_nonneg]

/-- Witness for C9, amended: the move from (0,0) to (100,0) at speed 1 on the circle of
`test/Main.cpp`, updated once 1.5 s after construction. -/
theorem move_completion_spec_witness :
    (MoveAnimation.new (CircleShape.createTarget Main.shape)
        { x := 0, y := 0 } { x := 100, y := 0 } 1 0 Main.shape).1.inRange 1500000 ∧
      (((MoveAnimation.new (CircleShape.createTarget Main.shape)
          { x := 0, y := 0 } { x := 100, y := 0 } 1 0 Main.shape).1.update 1500000
          Main.shape).done = true ↔
        1 ≤ ((MoveAnimation.new (CircleShape.createTarget Main.shape)
          { x := 0, y := 0 } { x := 100, y := 0 } 1 0 Main.shape).1.update 1500000
          Main.shape).anim.m_factor) :=
  ⟨Main.move_inRange,
    (move_completion_spec
      (MoveAnimation.new (CircleShape.createTarget Main.shape)
        { x := 0, y := 0 } { x := 100, y := 0 } 1 0 Main.shape).1 1500000 Main.shape
      (CircleShape.createTarget Main.shape) { x := 0, y := 0 } { x := 100, y := 0 } 1 0
      Main.move_inRange).2.2.1⟩

/-! ### Target facade: setters and construction -/

/-- C11: the size setter of a target sets the radius of a circular shape to `v.x`, the size of a
rectangular shape to `v`, and the character size of a text to the integer part of `v.x` (for
`v.x ≥ 0`); in each case position, rotation, fill colour and outline colour of the drawable are
as before. -/
theorem setSize_spec (circle c : CircleShape) (rect r : RectangleShape) (text t : Text)
    (v : Vector2f) :
    ((CircleShape.createTarget circle).setSize v c =
        { position := c.position, rotation := c.rotation, radius := v.x,
          fillColor := c.fillColor, outlineColor := c.outlineColor }) ∧
      ((RectangleShape.createTarget rect).setSize v r =
        { position := r.position, rotation := r.rotation, size := { x := v.x, y := v.y },
          fillColor := r.fillColor, outlineColor := r.outlineColor }) ∧
      ((Text.createTarget text).setSize v t =
        { position := t.position, rotation := t.rotation, characterSize := floatToUnsigned v.x,
          fillColor := t.fillColor, outlineColor := t.outlineColor }) ∧
      (0 ≤ v.x → ((floatToUnsigned v.x : Nat) : ℚ) ≤ v.x ∧ v.x < (floatToUnsigned v.x : ℚ) + 1) := by
  refine ⟨rfl, rfl, rfl, ?_⟩
  intro hx
  have hfloor : (0 : Int) ≤ Int.floor v.x := Int.floor_nonneg.mpr hx
  have hcast : ((floatToUnsigned v.x : Nat) : ℚ) = ((Int.floor v.x : Int) : ℚ) := by
    unfold floatToUnsigned
    have h := Int.toNat_of_nonneg hfloor
    exact_mod_cast congrArg (fun z : Int => (z : ℚ)) h
  rw [hcast]
  exact ⟨Int.floor_le v.x, Int.lt_floor_add_one v.x⟩

/-- Witness for C11: the size setter applied with the value (12.5, 3) sets the character size
of a text to 12. -/
theorem setSize_spec_witness :
    ((Text.createTarget Main.sampleText).setSize { x := 25 / 2, y := 3 }
      Main.sampleText).characterSize = 12 := by
  obtain ⟨_, _, htext, hfloor⟩ := setSize_spec Main.shape Main.shape Main.sampleRect
    Main.sampleRect Main.sampleText Main.sampleText { x := 25 / 2, y := 3 }
  obtain ⟨hle, hlt⟩ := hfloor (by norm_num)
  rw [htext]
  show floatToUnsigned (25 / 2) = 12
  have h1 : (2 : ℚ) * (floatToUnsigned (25 / 2) : ℚ) ≤ 25 := by linarith
  have h2 : (25 : ℚ) < 2 * (floatToUnsigned (25 / 2) : ℚ) + 2 := by linarith
  have h3 : 2 * floatToUnsigned (25 / 2) ≤ 25 := by exact_mod_cast h1
  have h4 : 25 < 2 * floatToUnsigned (25 / 2) + 2 := by exact_mod_cast h2
  omega

/-- C12: the colour fields of the target built by `createTarget` are read from the drawable:
fill and outline colour for a circular shape, a rectangular shape and a text, and the sprite's
colour twice for a sprite. Building the target returns the target only; the drawable is an
argument that is read and not returned. -/
theorem createTarget_colors (circle : CircleShape) (rect : RectangleShape) (text : Text)
    (sprite : Sprite) :
    ((CircleShape.createTarget circle).color = circle.fillColor ∧
        (CircleShape.createTarget circle).secondaryColor = circle.outlineColor) ∧
      ((RectangleShape.createTarget rect).color = rect.fillColor ∧
        (RectangleShape.createTarget rect).secondaryColor = rect.outlineColor) ∧
      ((Text.createTarget text).color = text.fillColor ∧
        (Text.createTarget text).secondaryColor = text.outlineColor) ∧
      ((Sprite.createTarget sprite).color = sprite.color ∧
        (Sprite.createTarget sprite).secondaryColor = sprite.color) :=
  ⟨⟨rfl, rfl⟩, ⟨rfl, rfl⟩, ⟨rfl, rfl⟩, ⟨rfl, rfl⟩⟩

/-! ### Coach: registration, clearing, totality -/

/-- C13: `playAnimation` yields the previous collection with the animation appended at the end:
the existing entries keep their positions, the length grows by one, the number of entries equal
to the animation grows by one (an animation already present gets a second entry), and neither
the world nor the record of invoked updates changes. -/
theorem playAnimation_spec {P W : Type} [DecidableEq P] (f : Frame P W) (a : P) :
    (f.playAnimation a).coach.m_animations = f.coach.m_animations ++ [a] ∧
      (∀ i : Nat, i < f.coach.m_animations.length →
        (f.playAnimation a).coach.m_animations.get? i = f.coach.m_animations.get? i) ∧
      (f.playAnimation a).coach.m_animations.get? f.coach.m_animations.length = some a ∧
      (f.playAnimation a).coach.m_animations.length = f.coach.m_animations.length + 1 ∧
      (f.playAnimation a).coach.m_animations.count a = f.coach.m_animations.count a + 1 ∧
      (f.playAnimation a).world = f.world ∧
      (f.playAnimation a).invoked = f.invoked := by
  refine ⟨rfl, ?_, ?_, ?_, ?_, rfl, rfl⟩
  · intro i hi
    simp only [Frame.playAnimation, Coach.playAnimation, List.get?_eq_getElem?]
    rw [List.getElem?_append_left hi]
  · simp [Frame.playAnimation, Coach.playAnimation]
  · simp [Frame.playAnimation, Coach.playAnimation]
  · simp [Frame.playAnimation, Coach.playAnimation, List.count_append]

/-- Witness for C13: registering the animation 7 in a coach that already holds 7 and 8. -/
theorem playAnimation_spec_witness :
    (0 < ([7, 8] : List Nat).length →
        (Frame.playAnimation
          ({ coach := { m_animations := [7, 8] }, world := (), invoked := [] } : Frame Nat Unit)
          7).coach.m_animations.get? 0 = some 7) ∧
      (Frame.playAnimation
        ({ coach := { m_animations := [7, 8] }, world := (), invoked := [] } : Frame Nat Unit)
        7).coach.m_animations = [7, 8, 7] :=
  ⟨fun h => (playAnimation_spec
      ({ coach := { m_animations := [7, 8] }, world := (), invoked := [] } : Frame Nat Unit)
      7).2.1 0 h,
    (playAnimation_spec
      ({ coach := { m_animations := [7, 8] }, world := (), invoked := [] } : Frame Nat Unit)
      7).1⟩

/-- C14: `stopAllAnimations` leaves the collection empty whatever it held, and neither the
world (animation objects, targets, drawables) nor the record of invoked updates changes. -/
theorem stopAllAnimations_spec {P W : Type} (f : Frame P W) :
    (f.stopAllAnimations).coach.m_animations = [] ∧
      (f.stopAllAnimations).world = f.world ∧
      (f.stopAllAnimations).invoked = f.invoked :=
  ⟨rfl, rfl, rfl⟩

theorem Coach.updateLoopChecked_eq {P W : Type} (upd : P → W → W × Bool) :
    ∀ (fuel i : Nat) (f : Frame P W), f.coach.m_animations.length - i < fuel →
      Coach.updateLoopChecked upd fuel i f = some (Coach.updateLoop upd i f) := by
  intro fuel
  induction fuel with
  | zero => intro i f h; omega
  | succ fuel ih =>
    intro i f h
    rw [Coach.updateLoopChecked, Coach.updateLoop]
    by_cases hi : i < f.coach.m_animations.length
    · simp only [hi, if_true, dite_true, List.get?_eq_getElem?, List.getElem?_eq_getElem hi,
        List.get_eq_getElem]
      by_cases hr : (upd f.coach.m_animations[i] f.world).2 = true
      · simp only [hr, if_true]
        apply ih
        simp only [List.length_eraseIdx, hi, if_true]
        omega
      · simp only [hr, if_false]
        apply ih
        simp only
        omega
    · simp only [hi, if_false, dite_false]

/-- C15: `Coach::update` is total. Run with every access checked, the loop ends within
`size + 1` evaluations of its condition without reading or erasing past the end of the
collection, and gives the result of `Coach::update`; on an empty collection it invokes nothing
and leaves collection and world as they were. -/
theorem coach_update_total {P W : Type} (upd : P → W → W × Bool) (c : Coach P) (w : W) :
    Coach.updateLoopChecked upd (c.m_animations.length + 1) 0
        { coach := c, world := w, invoked := [] } = some (Coach.update upd c w) ∧
      Coach.update upd { m_animations := [] } w =
        { coach := { m_animations := [] }, world := w, invoked := [] } := by
  constructor
  · exact Coach.updateLoopChecked_eq upd _ 0 _ (by simp)
  · rw [Coach.update, Coach.updateLoop]
    simp

/-! ### Display animation: sequences of calls -/

/-- Flags returned by a sequence of `update` calls on a `DisplayAnimation`: the call made at
reading `now` returns complete exactly when the delay has elapsed on the clock, whatever the
earlier calls returned. -/
theorem DisplayAnimation.run_flags {D : Type} (a : DisplayAnimation D) (d : D)
    (nows : List Time) :
    (runUpdates DisplayAnimation.update a d nows).map (fun o => o.done) =
      nows.map (fun now => decide (a.m_delay ≤ Time.asSeconds (now - a.m_clock.m_startTime))) := by
  induction nows generalizing d with
  | nil => rfl
  | cons now rest ih =>
    have hanim : (a.update now d).anim = a := by
      unfold DisplayAnimation.update
      split <;> rfl
    have hdone : (a.update now d).done =
        decide (a.m_delay ≤ Time.asSeconds (now - a.m_clock.m_startTime)) := by
      unfold DisplayAnimation.update
      by_cases h : (a.m_clock.getElapsedTime now).asSeconds ≥ a.m_delay
      · rw [if_pos h]
        simp only [Clock.getElapsedTime, ge_iff_le] at h
        simp [h]
      · rw [if_neg h]
        simp only [Clock.getElapsedTime, ge_iff_le] at h
        simp [h]
    simp only [runUpdates, List.map_cons, hanim, hdone, ih]

/-- Counterexample to C18: the animation of `test/Main.cpp` (delay `3.2f`) updated 3.2 s and
4 s after construction. Both calls are at or after the delay and both return complete, so more
than one call of the sequence returns complete. -/
theorem display_complete_once_counterexample :
    (runUpdates DisplayAnimation.update
        (DisplayAnimation.new (CircleShape.createTarget Main.shape) Main.delay false 0)
        Main.shape [3200000, 4000000]).map (fun o => o.done) = [true, true] ∧
      ¬ (((runUpdates DisplayAnimation.update
          (DisplayAnimation.new (CircleShape.createTarget Main.shape) Main.delay false 0)
          Main.shape [3200000, 4000000]).map (fun o => o.done)).count true = 1) := by
  have h : (runUpdates DisplayAnimation.update
      (DisplayAnimation.new (CircleShape.createTarget Main.shape) Main.delay false 0)
      Main.shape [3200000, 4000000]).map (fun o => o.done) = [true, true] := by
    rw [DisplayAnimation.run_flags]
    simp only [DisplayAnimation.new, List.map_cons, List.map_nil, Time.asSeconds_test_delay,
      Time.asSeconds_four_seconds]
    norm_num [Main.delay]
  rw [h]
  exact ⟨rfl, by decide⟩

/-- C18, amended: in every sequence of update calls of a `DisplayAnimation` with delay `delay`,
the calls that return complete are exactly the calls at which the single-precision reading that
`asSeconds` gives for the time elapsed since construction is at least the delay. When the calls
are made at non-decreasing times, the readings do not decrease, so every call after one that
returned complete returns complete too: the first call whose reading reaches the delay is the
first to return complete and all later calls return complete as well; the number of calls that
return complete is the number of calls whose reading reaches the delay. -/
theorem display_run_spec {D : Type} (target : Target D) (delay : ℚ) (show_ : Bool) (t0 : Time)
    (d : D) (nows : List Time) (hsorted : nows.Pairwise (fun s t => s ≤ t)) :
    (runUpdates DisplayAnimation.update (DisplayAnimation.new target delay show_ t0) d
        nows).map (fun o => o.done) =
      nows.map (fun now => decide (delay ≤ Time.asSeconds (now - t0))) ∧
    ((runUpdates DisplayAnimation.update (DisplayAnimation.new target delay show_ t0) d
        nows).map (fun o => o.done)).Pairwise (fun x y => x = true → y = true) ∧
    ((runUpdates DisplayAnimation.update (DisplayAnimation.new target delay show_ t0) d
        nows).map (fun o => o.done)).count true =
      (nows.filter (fun now => decide (delay ≤ Time.asSeconds (now - t0)))).length := by
  have hflags := DisplayAnimation.run_flags (DisplayAnimation.new target delay show_ t0) d nows
  have hflags2 : (runUpdates DisplayAnimation.update (DisplayAnimation.new target delay show_ t0)
      d nows).map (fun o => o.done) =
      nows.map (fun now => decide (delay ≤ Time.asSeconds (now - t0))) := hflags
  refine ⟨hflags2, ?_, ?_⟩
  · rw [hflags2, List.pairwise_map]
    refine hsorted.imp ?_
    intro s t hst hs
    simp only [decide_eq_true_eq] at hs ⊢
    exact le_trans hs (Time.asSeconds_mono _ _ (Int.sub_le_sub_right hst t0))
  · rw [hflags2]
    clear hflags hflags2 hsorted
    induction nows with
    | nil => rfl
    | cons now rest ih =>
      by_cases h : delay ≤ Time.asSeconds (now - t0)
      · simp [List.filter_cons, h, ih]
      · simp [List.filter_cons, h, ih]

/-- Witness for C18, amended: the animation of `test/Main.cpp` updated 1 s, 3.2 s and 4 s after
construction returns not-complete, complete, complete. -/
theorem display_run_spec_witness :
    ([1000000, 3200000, 4000000] : List Time).Pairwise (fun s t => s ≤ t) ∧
      (runUpdates DisplayAnimation.update
          (DisplayAnimation.new (CircleShape.createTarget Main.shape) Main.delay false 0)
          Main.shape [1000000, 3200000, 4000000]).map (fun o => o.done) =
        [false, true, true] :=
  ⟨by decide,
    (display_run_spec (CircleShape.createTarget Main.shape) Main.delay false 0 Main.shape
      [1000000, 3200000, 4000000] (by decide)).1.trans
      (by
        simp only [List.map_cons, List.map_nil, Time.asSeconds_one_second,
          Time.asSeconds_test_delay, Time.asSeconds_four_seconds]
        norm_num [Main.delay])⟩

/-! ### Fade animation: the step condition -/

theorem Time.asMilliseconds_of_range (e : Int) (h0 : 0 ≤ e) (h1 : e < 2147483648000) :
    Time.asMilliseconds e = e / 1000 := by
  unfold Time.asMilliseconds toInt32
  rw [Int.tdiv_eq_ediv h0 (by norm_num)]
  omega

/-- One call of `FadeAnimation::update`, from any state: a step is taken exactly when the
milliseconds elapsed on the clock reach `m_step`; a step restarts the clock at the reading of
the call, and a call without a step leaves the clock as it was. -/
theorem FadeAnimation.update_step_iff {D : Type} (self : FadeAnimation D) (now : Time) (d : D) :
    ((self.update now d).anim.m_steps = self.m_steps + 1 ↔
        self.m_step ≤ Time.asMilliseconds (now - self.m_clock.m_startTime)) ∧
      ((self.update now d).anim.m_steps = self.m_steps + 1 →
        (self.update now d).anim.m_clock.m_startTime = now) ∧
      ((self.update now d).anim.m_steps ≠ self.m_steps + 1 →
        (self.update now d).anim.m_clock = self.m_clock) := by
  obtain ⟨_, i2, i3, _, _, i6⟩ := FadeAnimation.initBlock_fields self d
  by_cases hstep : ((self.initBlock d).1.m_clock.getElapsedTime now).asMilliseconds ≥
      (self.initBlock d).1.m_step
  · have hu : (self.update now d).anim =
        { (self.initBlock d).1 with
          m_color := { (self.initBlock d).1.m_color with
            a := addUint8 (self.initBlock d).1.m_color.a (self.initBlock d).1.m_way }
          m_clock := ((self.initBlock d).1.m_clock.restart now).2
          m_steps := (self.initBlock d).1.m_steps + 1 } := by
      simp only [FadeAnimation.update, FadeAnimation.stepBlock, if_pos hstep]
    rw [i2, i3] at hstep
    rw [hu]
    simp only [i6, Clock.restart]
    refine ⟨⟨fun _ => hstep, fun _ => trivial⟩, fun _ => trivial, fun h => absurd rfl h⟩
  · have hu : (self.update now d).anim = (self.initBlock d).1 := by
      simp only [FadeAnimation.update, FadeAnimation.stepBlock, if_neg hstep]
    rw [i2, i3] at hstep
    rw [hu, i6, i2]
    refine ⟨⟨fun h => ?_, fun h => absurd h hstep⟩, fun h => ?_, fun _ => rfl⟩
    · omega
    · omega

theorem FadeAnimation.afterUpdates_step {D : Type} (a : FadeAnimation D) (d : D)
    (nows : List Time) :
    (afterUpdates FadeAnimation.update a d nows).1.m_step = a.m_step := by
  induction nows generalizing a d with
  | nil => rfl
  | cons now rest ih =>
    obtain ⟨_, _, u3, _⟩ := FadeAnimation.update_fields a now d
    simp only [afterUpdates]
    rw [ih, u3]
theorem truncToLong_of_nonneg (q : ℚ) (h : 0 ≤ q) : truncToLong q = Int.floor q := by
  rw [truncToLong, if_pos h]

/-- Counterexample to C17: a fade over 2 seconds (2000/255 ms is about 7.84 ms per step) first
updated 7.5 ms after construction takes a step, although 7.5 ms is less than 2000/255 ms. -/
theorem fade_step_condition_counterexample :
    ((FadeAnimation.new (CircleShape.createTarget Main.shape) 2 false 0 false).update 7500
        Main.shape).anim.m_steps =
      (FadeAnimation.new (CircleShape.createTarget Main.shape) 2 false 0 false).m_steps + 1 ∧
      ¬ ((2 * 1000 / 255 : ℚ) ≤ ((7500 - 0 : Int) : ℚ) / 1000) := by
  constructor
  · refine (FadeAnimation.update_step_iff _ 7500 Main.shape).1.mpr ?_
    show truncToLong ((2 * 1000) / 255) ≤ Time.asMilliseconds (7500 - 0)
    rw [truncToLong_two_seconds]
    decide
  · norm_num

/-- C17, amended: for a duration `time ≥ 0` and an update call made when the time elapsed on
the clock (since the last step, or since construction before the first step) is `e`
microseconds with `0 ≤ e` within the `sf::Int32` millisecond range, an alpha step is taken
exactly when `e` is at least `⌊time * 1000 / 255⌋` whole milliseconds: both the interval and
the elapsed time are truncated to whole milliseconds before they are compared. In particular a
step is taken whenever `e` is at least `time * 1000 / 255` milliseconds. The clock is started at
construction and restarted by every step and by nothing else. -/
theorem fade_step_condition_spec {D : Type} (target : Target D) (time : ℚ) (fadeIn : Bool)
    (t0 : Time) (flag0 : Bool) (d0 : D) (nows : List Time) (now : Time) (htime : 0 ≤ time)
    (hlo : (afterUpdates FadeAnimation.update (FadeAnimation.new target time fadeIn t0 flag0) d0
      nows).1.m_clock.m_startTime ≤ now)
    (hhi : now - (afterUpdates FadeAnimation.update
      (FadeAnimation.new target time fadeIn t0 flag0) d0 nows).1.m_clock.m_startTime <
        2147483648000) :
    (FadeAnimation.new target time fadeIn t0 flag0).m_clock.m_startTime = t0 ∧
      ((nthUpdate FadeAnimation.update (FadeAnimation.new target time fadeIn t0 flag0) d0 nows
          now).anim.m_steps =
        (afterUpdates FadeAnimation.update (FadeAnimation.new target time fadeIn t0 flag0) d0
          nows).1.m_steps + 1 ↔
        Int.floor (time * 1000 / 255) * 1000 ≤
          now - (afterUpdates FadeAnimation.update
            (FadeAnimation.new target time fadeIn t0 flag0) d0 nows).1.m_clock.m_startTime) ∧
      (time * 1000 / 255 ≤
          ((now - (afterUpdates FadeAnimation.update
            (FadeAnimation.new target time fadeIn t0 flag0) d0 nows).1.m_clock.m_startTime :
              Int) : ℚ) / 1000 →
        (nthUpdate FadeAnimation.update (FadeAnimation.new target time fadeIn t0 flag0) d0 nows
          now).anim.m_steps =
        (afterUpdates FadeAnimation.update (FadeAnimation.new target time fadeIn t0 flag0) d0
          nows).1.m_steps + 1) ∧
      ((nthUpdate FadeAnimation.update (FadeAnimation.new target time fadeIn t0 flag0) d0 nows
          now).anim.m_steps =
        (afterUpdates FadeAnimation.update (FadeAnimation.new target time fadeIn t0 flag0) d0
          nows).1.m_steps + 1 →
        (nthUpdate FadeAnimation.update (FadeAnimation.new target time fadeIn t0 flag0) d0 nows
          now).anim.m_clock.m_startTime = now) ∧
      ((nthUpdate FadeAnimation.update (FadeAnimation.new target time fadeIn t0 flag0) d0 nows
          now).anim.m_steps ≠
        (afterUpdates FadeAnimation.update (FadeAnimation.new target time fadeIn t0 flag0) d0
          nows).1.m_steps + 1 →
        (nthUpdate FadeAnimation.update (FadeAnimation.new target time fadeIn t0 flag0) d0 nows
          now).anim.m_clock =
        (afterUpdates FadeAnimation.update (FadeAnimation.new target time fadeIn t0 flag0) d0
          nows).1.m_clock) := by
  obtain ⟨s1, s2, s3⟩ := FadeAnimation.update_step_iff
    (afterUpdates FadeAnimation.update (FadeAnimation.new target time fadeIn t0 flag0) d0 nows).1
    now
    (afterUpdates FadeAnimation.update (FadeAnimation.new target time fadeIn t0 flag0) d0 nows).2
  have hq : (0 : ℚ) ≤ time * 1000 / 255 := by positivity
  have hstep : (afterUpdates FadeAnimation.update (FadeAnimation.new target time fadeIn t0 flag0)
      d0 nows).1.m_step = Int.floor (time * 1000 / 255) := by
    rw [FadeAnimation.afterUpdates_step]
    exact truncToLong_of_nonneg _ hq
  have hms := Time.asMilliseconds_of_range _ (Int.sub_nonneg.mpr hlo) hhi
  rw [hstep, hms, Int.le_ediv_iff_mul_le (by norm_num : (0 : Int) < 1000)] at s1
  refine ⟨rfl, s1, ?_, s2, s3⟩
  intro hx
  refine s1.mpr ?_
  have h1 : ((Int.floor (time * 1000 / 255) : Int) : ℚ) ≤ time * 1000 / 255 := Int.floor_le _
  have h2 : ((Int.floor (time * 1000 / 255) : Int) : ℚ) * 1000 ≤
      ((now - (afterUpdates FadeAnimation.update
        (FadeAnimation.new target time fadeIn t0 flag0) d0 nows).1.m_clock.m_startTime :
          Int) : ℚ) := by
    have := le_trans h1 hx
    rw [le_div_iff₀ (by norm_num : (0 : ℚ) < 1000)] at this
    exact this
  exact_mod_cast h2

/-- Witness for C17, amended: a fade over 2 seconds first updated 7.5 ms after construction. -/
theorem fade_step_condition_spec_witness :
    ((0 : ℚ) ≤ 2 ∧ (0 : Time) ≤ 7500 ∧ (7500 : Time) - 0 < 2147483648000) ∧
      ((nthUpdate FadeAnimation.update
          (FadeAnimation.new (CircleShape.createTarget Main.shape) 2 false 0 false) Main.shape
          [] 7500).anim.m_steps =
        (afterUpdates FadeAnimation.update
          (FadeAnimation.new (CircleShape.createTarget Main.shape) 2 false 0 false) Main.shape
          []).1.m_steps + 1 ↔
        Int.floor ((2 : ℚ) * 1000 / 255) * 1000 ≤
          7500 - (afterUpdates FadeAnimation.update
            (FadeAnimation.new (CircleShape.createTarget Main.shape) 2 false 0 false) Main.shape
            []).1.m_clock.m_startTime) :=
  ⟨⟨by norm_num, by decide, by decide⟩,
    (fade_step_condition_spec (CircleShape.createTarget Main.shape) 2 false 0 false Main.shape
      [] 7500 (by norm_num) (by decide) (by decide)).2.1⟩
/-! ### Fade animation: duration 0 -/

/-- With a zero step interval every call of a run made at steady clock readings takes a step:
after the calls at `nows` and the call at `now` the counter has grown by their number. -/
theorem FadeAnimation.run_zero_step {D : Type} (nows : List Time) (now : Time)
    (a : FadeAnimation D) (d : D) (hstep : a.m_step = 0)
    (hsteady : steadyReadings a.m_clock.m_startTime (nows ++ [now])) :
    (nthUpdate FadeAnimation.update a d nows now).anim.m_steps = a.m_steps + nows.length + 1 := by
  induction nows generalizing a d with
  | nil =>
    obtain ⟨h0, h1, _⟩ := hsteady
    obtain ⟨s1, _, _⟩ := FadeAnimation.update_step_iff a now d
    have hms := Time.asMilliseconds_of_range _ (Int.sub_nonneg.mpr h0) h1
    have hge : a.m_step ≤ Time.asMilliseconds (now - a.m_clock.m_startTime) := by
      rw [hms, hstep]
      exact Int.ediv_nonneg (Int.sub_nonneg.mpr h0) (by norm_num)
    simp only [nthUpdate, afterUpdates, List.length_nil, Nat.cast_zero, add_zero]
    exact s1.mpr hge
  | cons n1 rest ih =>
    obtain ⟨h0, h1, hrest⟩ := hsteady
    obtain ⟨s1, s2, _⟩ := FadeAnimation.update_step_iff a n1 d
    obtain ⟨_, _, u3, _⟩ := FadeAnimation.update_fields a n1 d
    have hms := Time.asMilliseconds_of_range _ (Int.sub_nonneg.mpr h0) h1
    have hge : a.m_step ≤ Time.asMilliseconds (n1 - a.m_clock.m_startTime) := by
      rw [hms, hstep]
      exact Int.ediv_nonneg (Int.sub_nonneg.mpr h0) (by norm_num)
    have hs := s1.mpr hge
    have hc := s2 hs
    have := ih (a.update n1 d).anim (a.update n1 d).drawable (by rw [u3, hstep])
      (by rw [hc]; exact hrest)
    simp only [nthUpdate, afterUpdates, List.length_cons, Nat.cast_add, Nat.cast_one] at this ⊢
    rw [this, hs]
    ring

/-- Counterexample to C16: the circle of `test/Main.cpp` faded in over a duration of 0 seconds.
The first update call takes the first of the 255 alpha steps and reports not-complete. -/
theorem fade_zero_duration_counterexample :
    ((FadeAnimation.new (CircleShape.createTarget Main.shape) 0 true 0 false).update 0
        Main.shape).done = false ∧
      ((FadeAnimation.new (CircleShape.createTarget Main.shape) 0 true 0 false).update 0
        Main.shape).anim.m_steps = 1 := by
  have hstep : (FadeAnimation.new (CircleShape.createTarget Main.shape) 0 true 0 false).m_step
      = 0 := truncToLong_zero
  obtain ⟨z1, _, _⟩ := FadeAnimation.update_zero_interval _ Main.shape hstep rfl
  obtain ⟨_, _, _, _, _, _, u7, _⟩ := FadeAnimation.update_fields
    (FadeAnimation.new (CircleShape.createTarget Main.shape) 0 true 0 false) 0 Main.shape
  have h1 : ((FadeAnimation.new (CircleShape.createTarget Main.shape) 0 true 0 false).update 0
      Main.shape).anim.m_steps = 1 := by
    rw [z1]; rfl
  refine ⟨?_, h1⟩
  cases hd : ((FadeAnimation.new (CircleShape.createTarget Main.shape) 0 true 0 false).update 0
      Main.shape).done with
  | false => rfl
  | true =>
    have := u7.mp hd
    rw [h1] at this
    omega

/-- C16, amended: for a `FadeAnimation` constructed with duration 0 (either direction, any
initial colour), every update call made at steady clock readings takes one alpha step, so the
`n`-th update call leaves the step counter at `n` and reports completion exactly when
`n ≥ 255`: completion is first reported by the 255th update call, not by the first. -/
theorem fade_zero_duration_spec {D : Type} (target : Target D) (fadeIn : Bool) (t0 : Time)
    (flag0 : Bool) (d0 : D) (nows : List Time) (now : Time)
    (hsteady : steadyReadings t0 (nows ++ [now])) :
    (nthUpdate FadeAnimation.update (FadeAnimation.new target 0 fadeIn t0 flag0) d0 nows
        now).anim.m_steps = nows.length + 1 ∧
      ((nthUpdate FadeAnimation.update (FadeAnimation.new target 0 fadeIn t0 flag0) d0 nows
        now).done = true ↔ 255 ≤ nows.length + 1) := by
  have hstep : (FadeAnimation.new target 0 fadeIn t0 flag0).m_step = 0 := truncToLong_zero
  have h := FadeAnimation.run_zero_step nows now (FadeAnimation.new target 0 fadeIn t0 flag0) d0
    hstep hsteady
  have h0 : (FadeAnimation.new target 0 fadeIn t0 flag0).m_steps = 0 := rfl
  rw [h0, zero_add] at h
  obtain ⟨_, _, _, _, _, _, u7, _⟩ := FadeAnimation.update_fields
    (afterUpdates FadeAnimation.update (FadeAnimation.new target 0 fadeIn t0 flag0) d0 nows).1
    now
    (afterUpdates FadeAnimation.update (FadeAnimation.new target 0 fadeIn t0 flag0) d0 nows).2
  refine ⟨h, ?_⟩
  simp only [nthUpdate] at h ⊢
  rw [u7, h]
  constructor
  · intro hh; exact_mod_cast hh
  · intro hh; exact_mod_cast hh

/-- Witness for C16, amended: the circle of `test/Main.cpp` faded out over a duration of 0
seconds and updated 16 ms, 33 ms and 50 ms after construction: the third call leaves the counter
at 3. -/
theorem fade_zero_duration_spec_witness :
    steadyReadings 0 ([16000, 33000] ++ [50000]) ∧
      (nthUpdate FadeAnimation.update
        (FadeAnimation.new (CircleShape.createTarget Main.shape) 0 false 0 false) Main.shape
        [16000, 33000] 50000).anim.m_steps = ([16000, 33000] : List Time).length + 1 :=
  ⟨by simp [steadyReadings],
    (fade_zero_duration_spec (CircleShape.createTarget Main.shape) false 0 false Main.shape
      [16000, 33000] 50000 (by simp [steadyReadings])).1⟩

/-! ### Coach: which entries one update reaches -/

/-- The closed form of the loop keeps a sublist of the entries, invokes a sublist of the
entries, and leaves the world that those invocations leave, made in that order. -/
theorem Coach.sweep_sublist {P W : Type} (upd : P → W → W × Bool) :
    ∀ (n : Nat) (l : List P) (w : W), l.length ≤ n →
      (Coach.sweep upd l w).1.Sublist l ∧ (Coach.sweep upd l w).2.2.Sublist l ∧
        (Coach.sweep upd l w).2.1 = invokeAll upd w (Coach.sweep upd l w).2.2 := by
  intro n
  induction n with
  | zero =>
    intro l w h
    have : l = [] := List.length_eq_zero.mp (Nat.le_zero.mp h)
    subst this
    simp [Coach.sweep, invokeAll]
  | succ n ih =>
    intro l w h
    match l, h with
    | [], _ => simp [Coach.sweep, invokeAll]
    | [a], _ =>
      by_cases hr : (upd a w).2 = true
      · simp [Coach.sweep, hr, invokeAll]
      · simp [Coach.sweep, hr, invokeAll]
    | a :: b :: rest, h =>
      by_cases hr : (upd a w).2 = true
      · obtain ⟨e1, e2, e3⟩ := ih rest (upd a w).1 (by simp at h; omega)
        have hsw : Coach.sweep upd (a :: b :: rest) w =
            (b :: (Coach.sweep upd rest (upd a w).1).1,
              (Coach.sweep upd rest (upd a w).1).2.1,
              a :: (Coach.sweep upd rest (upd a w).1).2.2) := by
          simp [Coach.sweep, hr]
        rw [hsw]
        refine ⟨?_, ?_, ?_⟩
        · exact (e1.cons₂ b).cons a
        · exact (e2.cons b).cons₂ a
        · simp only [invokeAll]; exact e3
      · obtain ⟨e1, e2, e3⟩ := ih (b :: rest) (upd a w).1 (by simp at h ⊢; omega)
        have hsw : Coach.sweep upd (a :: b :: rest) w =
            (a :: (Coach.sweep upd (b :: rest) (upd a w).1).1,
              (Coach.sweep upd (b :: rest) (upd a w).1).2.1,
              a :: (Coach.sweep upd (b :: rest) (upd a w).1).2.2) := by
          simp [Coach.sweep, hr]
        rw [hsw]
        refine ⟨e1.cons₂ a, e2.cons₂ a, ?_⟩
        simp only [invokeAll]; exact e3

/-- Accounting of the closed form of the loop: the entries are, up to order, the entries kept
together with the invoked entries whose invocation reported completion; the invoked entries
whose invocation reported not-complete are among the entries kept, in order. -/
theorem Coach.sweep_accounting {P W : Type} (upd : P → W → W × Bool) :
    ∀ (n : Nat) (l : List P) (w : W), l.length ≤ n →
      l.Perm ((Coach.sweep upd l w).1 ++
          ((reports upd w (Coach.sweep upd l w).2.2).filter (fun r => r.2)).map
            (fun r => r.1)) ∧
        (((reports upd w (Coach.sweep upd l w).2.2).filter (fun r => !r.2)).map
          (fun r => r.1)).Sublist (Coach.sweep upd l w).1 := by
  intro n
  induction n with
  | zero =>
    intro l w h
    have : l = [] := List.length_eq_zero.mp (Nat.le_zero.mp h)
    subst this
    simp [Coach.sweep, reports]
  | succ n ih =>
    intro l w h
    match l, h with
    | [], _ => simp [Coach.sweep, reports]
    | [a], _ =>
      by_cases hr : (upd a w).2 = true
      · simp [Coach.sweep, hr, reports]
      · simp [Coach.sweep, hr, reports]
    | a :: b :: rest, h =>
      by_cases hr : (upd a w).2 = true
      · obtain ⟨e1, e2⟩ := ih rest (upd a w).1 (by simp at h; omega)
        have hsw : Coach.sweep upd (a :: b :: rest) w =
            (b :: (Coach.sweep upd rest (upd a w).1).1,
              (Coach.sweep upd rest (upd a w).1).2.1,
              a :: (Coach.sweep upd rest (upd a w).1).2.2) := by
          simp [Coach.sweep, hr]
        rw [hsw]
        simp only [reports, hr, List.filter_cons_of_pos, List.map_cons, Bool.not_true,
          List.filter_cons_of_neg, Bool.false_eq_true, not_false_eq_true, List.cons_append]
        refine ⟨?_, e2.cons b⟩
        refine (List.Perm.swap b a rest).trans ?_
        refine List.Perm.cons b ?_
        exact (List.Perm.cons a e1).trans List.perm_middle.symm
      · obtain ⟨e1, e2⟩ := ih (b :: rest) (upd a w).1 (by simp at h ⊢; omega)
        have hsw : Coach.sweep upd (a :: b :: rest) w =
            (a :: (Coach.sweep upd (b :: rest) (upd a w).1).1,
              (Coach.sweep upd (b :: rest) (upd a w).1).2.1,
              a :: (Coach.sweep upd (b :: rest) (upd a w).1).2.2) := by
          simp [Coach.sweep, hr]
        have hr2 : (upd a w).2 = false := by simpa using hr
        rw [hsw]
        simp only [reports, hr2, Bool.false_eq_true, not_false_eq_true, List.filter_cons_of_neg,
          Bool.not_false, List.filter_cons_of_pos, List.map_cons, List.cons_append]
        exact ⟨List.Perm.cons a e1, e2.cons₂ a⟩

/-- C20: after `Coach::update` the collection is a sublist of the collection before (same
order, never longer); up to order, the collection before consists of the collection after and
the entries whose update was invoked in this call and reported completion, so every entry
removed was invoked and reported completion; and the entries whose update was invoked and
reported not-complete are all still in the collection. The invoked entries themselves form a
sublist of the collection, and the world left is the one their invocations leave. -/
theorem coach_update_removes_only_completed {P W : Type} (upd : P → W → W × Bool) (c : Coach P)
    (w : W) :
    (Coach.update upd c w).coach.m_animations.Sublist c.m_animations ∧
      (Coach.update upd c w).coach.m_animations.length ≤ c.m_animations.length ∧
      (Coach.update upd c w).invoked.Sublist c.m_animations ∧
      (Coach.update upd c w).world = invokeAll upd w (Coach.update upd c w).invoked ∧
      c.m_animations.Perm ((Coach.update upd c w).coach.m_animations ++
        ((reports upd w (Coach.update upd c w).invoked).filter (fun r => r.2)).map
          (fun r => r.1)) ∧
      (((reports upd w (Coach.update upd c w).invoked).filter (fun r => !r.2)).map
        (fun r => r.1)).Sublist (Coach.update upd c w).coach.m_animations := by
  obtain ⟨s1, s2, s3⟩ := Coach.sweep_sublist upd c.m_animations.length c.m_animations w
    (Nat.le_refl _)
  obtain ⟨a1, a2⟩ := Coach.sweep_accounting upd c.m_animations.length c.m_animations w
    (Nat.le_refl _)
  rw [Coach.update_eq_sweep]
  exact ⟨s1, s1.length_le, s2, s3, a1, a2⟩

theorem evens_odds_length {α : Type} :
    ∀ (n : Nat) (l : List α), l.length ≤ n →
      (evens l).length = (l.length + 1) / 2 ∧ (odds l).length = l.length / 2 := by
  intro n
  induction n with
  | zero =>
    intro l h
    have : l = [] := List.length_eq_zero.mp (Nat.le_zero.mp h)
    subst this
    simp [evens, odds]
  | succ n ih =>
    intro l h
    match l, h with
    | [], _ => simp [evens, odds]
    | [a], _ => simp [evens, odds]
    | a :: b :: rest, h =>
      obtain ⟨e1, e2⟩ := ih rest (by simp at h; omega)
      simp only [evens, odds, List.length_cons, e1, e2]
      omega

theorem evens_odds_get {α : Type} :
    ∀ (n : Nat) (l : List α), l.length ≤ n →
      ∀ k : Nat, (evens l).get? k = l.get? (2 * k) ∧ (odds l).get? k = l.get? (2 * k + 1) := by
  intro n
  induction n with
  | zero =>
    intro l h k
    have : l = [] := List.length_eq_zero.mp (Nat.le_zero.mp h)
    subst this
    simp [evens, odds]
  | succ n ih =>
    intro l h k
    match l, h with
    | [], _ => simp [evens, odds]
    | [a], _ =>
      cases k with
      | zero => simp [evens, odds]
      | succ k => simp [evens, odds, Nat.mul_succ]
    | a :: b :: rest, h =>
      cases k with
      | zero => simp [evens, odds]
      | succ k =>
        obtain ⟨e1, e2⟩ := ih rest (by simp at h; omega) k
        simp only [evens, odds, List.get?_cons_succ, Nat.mul_succ, e1, e2]
        exact ⟨trivial, trivial⟩

/-- When every registered animation reports completion at each invocation, the closed form of
the loop invokes the entries at even positions and keeps those at odd positions. -/
theorem Coach.sweep_all_complete {P W : Type} (upd : P → W → W × Bool) (w : W)
    (anims : List P)
    (hall : ∀ hist : List P, (∀ q ∈ hist, q ∈ anims) → ∀ p ∈ anims,
      (upd p (invokeAll upd w hist)).2 = true) :
    ∀ (n : Nat) (l h : List P), l.length ≤ n → (∀ q ∈ h, q ∈ anims) → (∀ q ∈ l, q ∈ anims) →
      Coach.sweep upd l (invokeAll upd w h) =
        (odds l, invokeAll upd w (h ++ evens l), evens l) := by
  intro n
  induction n with
  | zero =>
    intro l h hl _ _
    have : l = [] := List.length_eq_zero.mp (Nat.le_zero.mp hl)
    subst this
    simp [Coach.sweep, evens, odds]
  | succ n ih =>
    intro l h hl hh hmem
    have step : ∀ a : P, invokeAll upd w (h ++ [a]) = (upd a (invokeAll upd w h)).1 := by
      intro a; rw [invokeAll_append]; rfl
    match l, hl, hmem with
    | [], _, _ => simp [Coach.sweep, evens, odds]
    | [a], _, hmem =>
      have hr := hall h hh a (hmem a (List.mem_cons_self _ _))
      simp [Coach.sweep, hr, evens, odds, step]
    | a :: b :: rest, hl, hmem =>
      have ha : a ∈ anims := hmem a (List.mem_cons_self _ _)
      have hr := hall h hh a ha
      have hh1 : ∀ q ∈ h ++ [a], q ∈ anims := by
        intro q hq
        rcases List.mem_append.mp hq with hq | hq
        · exact hh q hq
        · simp at hq; subst hq; exact ha
      have e := ih rest (h ++ [a]) (by simp at hl; omega) hh1
        (fun q hq => hmem q (by simp [hq]))
      rw [step] at e
      have hsw : Coach.sweep upd (a :: b :: rest) (invokeAll upd w h) =
          (b :: (Coach.sweep upd rest (upd a (invokeAll upd w h)).1).1,
            (Coach.sweep upd rest (upd a (invokeAll upd w h)).1).2.1,
            a :: (Coach.sweep upd rest (upd a (invokeAll upd w h)).1).2.2) := by
        simp [Coach.sweep, hr]
      rw [hsw, e]
      simp [evens, odds]
/-- When the loop of `Coach::update` stands at an entry that reports completion and another
entry follows it, that following entry is kept in the slot of the erased one and the rest of the
call invokes entries behind it only. -/
theorem Coach.updateLoop_skips_next {P W : Type} (upd : P → W → W × Bool)
    (pre : List P) (a b : P) (post : List P) (w : W) (log : List P)
    (hr : (upd a w).2 = true) :
    ∃ K T : List P, K.Sublist post ∧ T.Sublist post ∧
      (Coach.updateLoop upd pre.length
        { coach := { m_animations := pre ++ a :: b :: post }, world := w,
          invoked := log }).coach.m_animations = pre ++ b :: K ∧
      (Coach.updateLoop upd pre.length
        { coach := { m_animations := pre ++ a :: b :: post }, world := w,
          invoked := log }).invoked = log ++ a :: T := by
  obtain ⟨s1, s2, _⟩ := Coach.sweep_sublist upd post.length post (upd a w).1 (Nat.le_refl _)
  refine ⟨(Coach.sweep upd post (upd a w).1).1, (Coach.sweep upd post (upd a w).1).2.2, s1, s2,
    ?_, ?_⟩
  · rw [Coach.updateLoop_eq_sweep upd (a :: b :: post).length (a :: b :: post) pre w log
      (Nat.le_refl _)]
    simp [Coach.sweep, hr]
  · rw [Coach.updateLoop_eq_sweep upd (a :: b :: post).length (a :: b :: post) pre w log
      (Nat.le_refl _)]
    simp [Coach.sweep, hr]

/-- C19: if every animation of a collection of `N` entries reports completion whenever it is
invoked, one `Coach::update` invokes exactly the entries at the even positions 0, 2, 4, ...
(`(N + 1) / 2` of them) and removes them, and leaves the `N / 2` entries at the odd positions
in the collection, in order, without invoking them. In general, whenever the loop stands at an
entry `a` that reports completion and an entry `b` follows it, `b` is kept and the rest of the
call invokes only entries behind `b`. -/
theorem coach_update_all_complete {P W : Type} (upd : P → W → W × Bool) (w : W)
    (anims : List P)
    (hall : ∀ hist : List P, (∀ q ∈ hist, q ∈ anims) → ∀ p ∈ anims,
      (upd p (invokeAll upd w hist)).2 = true) :
    (Coach.update upd { m_animations := anims } w).invoked = evens anims ∧
      (Coach.update upd { m_animations := anims } w).coach.m_animations = odds anims ∧
      (evens anims).length = (anims.length + 1) / 2 ∧
      (odds anims).length = anims.length / 2 ∧
      (∀ k : Nat, (evens anims).get? k = anims.get? (2 * k) ∧
        (odds anims).get? k = anims.get? (2 * k + 1)) ∧
      (∀ (pre : List P) (a b : P) (post : List P) (w1 : W) (log : List P),
        (upd a w1).2 = true →
        ∃ K T : List P, K.Sublist post ∧ T.Sublist post ∧
          (Coach.updateLoop upd pre.length
            { coach := { m_animations := pre ++ a :: b :: post }, world := w1,
              invoked := log }).coach.m_animations = pre ++ b :: K ∧
          (Coach.updateLoop upd pre.length
            { coach := { m_animations := pre ++ a :: b :: post }, world := w1,
              invoked := log }).invoked = log ++ a :: T) := by
  have hs := Coach.sweep_all_complete upd w anims hall anims.length anims [] (Nat.le_refl _)
    (by simp) (fun q hq => hq)
  simp only [invokeAll, List.nil_append] at hs
  obtain ⟨l1, l2⟩ := evens_odds_length anims.length anims (Nat.le_refl _)
  refine ⟨?_, ?_, l1, l2, evens_odds_get anims.length anims (Nat.le_refl _), ?_⟩
  · rw [Coach.update_eq_sweep, hs]
  · rw [Coach.update_eq_sweep, hs]
  · intro pre a b post w1 log hr
    exact Coach.updateLoop_skips_next upd pre a b post w1 log hr

theorem set_of_get?_eq_some {α : Type} (l : List α) (i : Nat) (a : α)
    (h : l.get? i = some a) : l.set i a = l := by
  induction l generalizing i with
  | nil => rfl
  | cons x l ih =>
    cases i with
    | zero =>
      simp only [List.get?_cons_zero, Option.some.injEq] at h
      rw [List.set_cons_zero, h]
    | succ i =>
      simp only [List.get?_cons_succ] at h
      rw [List.set_cons_succ, ih i h]

theorem DisplayAnimation.update_anim {D : Type} (a : DisplayAnimation D) (now : Time) (d : D) :
    (a.update now d).anim = a := by
  unfold DisplayAnimation.update
  split <;> rfl

theorem DisplayWorld.invoke_fields (p : Nat) (w : DisplayWorld) :
    (DisplayWorld.invoke p w).1.anims = w.anims ∧ (DisplayWorld.invoke p w).1.now = w.now := by
  unfold DisplayWorld.invoke
  cases hget : w.anims.get? p with
  | none => exact ⟨rfl, rfl⟩
  | some a =>
    refine ⟨?_, rfl⟩
    simp only [DisplayAnimation.update_anim]
    exact set_of_get?_eq_some _ _ _ hget

theorem DisplayWorld.invoke_done (p : Nat) (w : DisplayWorld) (a : DisplayAnimation CircleShape)
    (hget : w.anims.get? p = some a) :
    (DisplayWorld.invoke p w).2 = (a.update w.now w.shape).done := by
  unfold DisplayWorld.invoke
  rw [hget]

theorem DisplayWorld.invokeAll_fields (hist : List Nat) (w : DisplayWorld) :
    (invokeAll DisplayWorld.invoke w hist).anims = w.anims ∧
      (invokeAll DisplayWorld.invoke w hist).now = w.now := by
  induction hist generalizing w with
  | nil => exact ⟨rfl, rfl⟩
  | cons p hist ih =>
    obtain ⟨h1, h2⟩ := ih (DisplayWorld.invoke p w).1
    obtain ⟨f1, f2⟩ := DisplayWorld.invoke_fields p w
    exact ⟨h1.trans f1, h2.trans f2⟩

/-- Witness for C19: three display animations that all report completion, registered as 0, 1,
2: one `Coach::update` invokes the entries 0 and 2 and leaves the entry 1 in the collection. -/
theorem coach_update_all_complete_witness :
    (Coach.update DisplayWorld.invoke { m_animations := [0, 1, 2] }
        Main.threeDisplays).invoked = [0, 2] ∧
      (Coach.update DisplayWorld.invoke { m_animations := [0, 1, 2] }
        Main.threeDisplays).coach.m_animations = [1] := by
  have hall : ∀ hist : List Nat, (∀ q ∈ hist, q ∈ [0, 1, 2]) → ∀ p ∈ [0, 1, 2],
      (DisplayWorld.invoke p (invokeAll DisplayWorld.invoke Main.threeDisplays hist)).2 = true := by
    intro hist _ p hp
    obtain ⟨h1, h2⟩ := DisplayWorld.invokeAll_fields hist Main.threeDisplays
    generalize invokeAll DisplayWorld.invoke Main.threeDisplays hist = w1 at h1 h2
    simp only [List.mem_cons, List.mem_singleton, List.not_mem_nil, or_false] at hp
    rcases hp with rfl | rfl | rfl
    · rw [DisplayWorld.invoke_done 0 w1 _ (by rw [h1]; rfl), h2]
      simp [Main.threeDisplays, DisplayAnimation.update, DisplayAnimation.new,
        Clock.getElapsedTime, Time.asSeconds_zero]
    · rw [DisplayWorld.invoke_done 1 w1 _ (by rw [h1]; rfl), h2]
      simp [Main.threeDisplays, DisplayAnimation.update, DisplayAnimation.new,
        Clock.getElapsedTime, Time.asSeconds_zero]
    · rw [DisplayWorld.invoke_done 2 w1 _ (by rw [h1]; rfl), h2]
      simp [Main.threeDisplays, DisplayAnimation.update, DisplayAnimation.new,
        Clock.getElapsedTime, Time.asSeconds_zero]
  obtain ⟨h1, h2, _⟩ := coach_update_all_complete DisplayWorld.invoke Main.threeDisplays
    [0, 1, 2] hall
  exact ⟨h1, h2⟩

end sfCoach
